import Mathlib

/-!
Verification of the colocale catalog resolution and validation engine.

The definitions below are shallow embeddings of the TypeScript sources:
`src/utils.ts` (`getNestedValue`, `replacePlaceholders`), `src/plural.ts`
(`selectPluralKey`, `resolvePluralMessage`, `extractPluralKeys`),
`src/index.ts` (`mergeRequirements`, `pickMessages`, `createTranslator`)
and `src/validation.ts` (`collectAllKeys`, `validatePluralKeys`,
`validateNesting`, `validateKeyNames`, `validatePlaceholders`,
`validateTranslations`, `validateCrossLocale`).

Modelling conventions:
* JavaScript objects are association lists with unique keys in insertion
  order; `alookup` is property access (`obj[k]`, `k in obj`, `Map.get`).
* JSON values inside a namespace are `JValue` (a string or a nested
  object); the declared catalog shape is flat (all values strings).
* Placeholder values are `PValue` (a string or a number); counts are
  modelled as integers.  `jsString` is JavaScript `String(value)`.
* `String.prototype.replaceAll` with a plain (non-empty) string pattern is
  modelled by `replaceAll`; the `$`-escape processing JavaScript applies
  to the replacement argument is not modelled, so theorems about
  placeholder substitution carry a `$`-freeness hypothesis where needed.
* The host `Intl.PluralRules` classifier is a function parameter
  `select : String → Int → String` (locale, count ↦ category); a concrete
  instance (`intlPluralSelect`) is modelled from the spec for witnesses.
-/

set_option autoImplicit false

namespace Colocale

/-- Association-list lookup, modelling JavaScript property access on plain
objects and `Map.get`: the first entry with the requested key wins. -/
def alookup {α β : Type} [DecidableEq α] : List (α × β) → α → Option β
  | [], _ => none
  | (k, v) :: rest, a => if k = a then some v else alookup rest a

/-- A JSON value inside one namespace of a translation file: either a
string message or a nested object (the canonical shape is flat, but the
runtime code tolerates nested objects, so the model keeps them). -/
inductive JValue where
  | str (s : String)
  | obj (fields : List (String × JValue))

/-- Whether a `JValue` is a string (JavaScript `typeof v === "string"`). -/
def JValue.isStr : JValue → Bool
  | .str _ => true
  | .obj _ => false

/-- One namespace of a translation file: entry key to value. -/
abbrev NamespaceTranslations := List (String × JValue)

/-- A translation file: namespace to entry map (`TranslationFile`). -/
abbrev TranslationFile := List (String × NamespaceTranslations)

/-- Locale-grouped catalogs: locale to translation file
(`LocaleTranslations`). -/
abbrev LocaleTranslations := List (String × TranslationFile)

/-- A translation requirement: a namespace together with the list of
declared base keys (`TranslationRequirement`). -/
structure TranslationRequirement where
  ns : String
  keys : List String
  deriving DecidableEq, Repr

/-- A value supplied for placeholder substitution: a string or a number
(`PlaceholderValues` maps names to `string | number`). -/
inductive PValue where
  | str (s : String)
  | num (n : Int)
  deriving DecidableEq, Repr

/-- A placeholder value map, in insertion order. -/
abbrev PlaceholderValues := List (String × PValue)

/-- JavaScript `String(value)` on a placeholder value: strings unchanged,
numbers in decimal form. -/
def jsString : PValue → String
  | .str s => s
  | .num n => toString n

/-- The resolved message set returned by `pickMessages`: a locale tag plus
a flat map from `"namespace.key"` to the resolved string. -/
structure Messages where
  locale : String
  translations : List (String × String)
  deriving DecidableEq, Repr

/-! ## utils.ts -/

/-- Split a list of characters at every `'.'`, modelling
`path.split(".")` (the accumulator holds the current part reversed). -/
def splitDotAux (acc : List Char) : List Char → List String
  | [] => [String.mk acc.reverse]
  | c :: cs =>
    if c = '.' then String.mk acc.reverse :: splitDotAux [] cs
    else splitDotAux (c :: acc) cs

/-- JavaScript `path.split(".")`. -/
def splitDot (path : String) : List String := splitDotAux [] path.data

/-- Traversal step of `getNestedValue`: walk the already-split path
through nested objects; a string result is returned only when the whole
path was consumed (`typeof current === "string"` check at the end). -/
def getNestedValueAux : JValue → List String → Option String
  | .str s, [] => some s
  | .obj _, [] => none
  | .str _, _ :: _ => none
  | .obj fields, k :: ks =>
    match alookup fields k with
    | some v => getNestedValueAux v ks
    | none => none

/-- `getNestedValue(obj, path)` from `src/utils.ts`: split the path on
dots and walk the object, returning the string found at the end. -/
def getNestedValue (obj : NamespaceTranslations) (path : String) : Option String :=
  getNestedValueAux (.obj obj) (splitDot path)

/-- Fuel-driven core of `replaceAll`: at each position, a (non-empty)
pattern occurrence is replaced and the scan continues after it,
otherwise one character is emitted.  Every step consumes at least one
character, so fuel equal to the length of the list (as supplied by
`replaceAllAux`) makes the fuel bound immaterial; the structural
recursion on the fuel keeps the definition computable by the kernel. -/
def replaceAllFuel (pat rep : List Char) : Nat → List Char → List Char
  | _, [] => []
  | 0, l => l
  | n + 1, c :: cs =>
    if pat.isPrefixOf (c :: cs) ∧ pat ≠ [] then
      rep ++ replaceAllFuel pat rep n (cs.drop (pat.length - 1))
    else
      c :: replaceAllFuel pat rep n cs

/-- Replace every occurrence of the (non-empty) pattern in a character
list, modelling `String.prototype.replaceAll` with a plain string
pattern.  (JavaScript's behaviour for an empty pattern and its
`$`-escapes in the replacement are not modelled; the engine only ever
passes patterns of the form `\x7b\x7bname\x7d\x7d`.) -/
def replaceAllAux (pat rep s : List Char) : List Char :=
  replaceAllFuel pat rep s.length s

/-- JavaScript `s.replaceAll(pat, rep)` for a plain string pattern. -/
def replaceAll (s pat rep : String) : String :=
  String.mk (replaceAllAux pat.data rep.data s.data)

/-- `replacePlaceholders(message, values)` from `src/utils.ts`: for each
entry of the value map in order, globally replace `\x7b\x7bname\x7d\x7d`
by the stringified value. -/
def replacePlaceholders (message : String) (values : PlaceholderValues) : String :=
  values.foldl (fun result kv => replaceAll result ("\x7b\x7b" ++ kv.1 ++ "\x7d\x7d") (jsString kv.2)) message

/-! ## plural.ts -/

/-- The probe suffixes of `extractPluralKeys`
(`INTL_PLURAL_CATEGORIES` in `src/plural.ts`). -/
def INTL_PLURAL_CATEGORIES : List String :=
  ["_zero", "_one", "_two", "_few", "_many", "_other"]

/-- `selectPluralKey(baseKey, count, locale)` from `src/plural.ts`:
append the category chosen by the `Intl.PluralRules` classifier
(modelled by the parameter `select`). -/
def selectPluralKey (select : String → Int → String) (baseKey : String) (count : Int)
    (locale : String) : String :=
  baseKey ++ "_" ++ select locale count

/-- `resolvePluralMessage(messages, namespace, baseKey, count, locale)`
from `src/plural.ts`: try the classified key, then fall back to the
`_other` sibling. -/
def resolvePluralMessage (select : String → Int → String) (messages : List (String × String))
    (ns baseKey : String) (count : Int) (locale : String) : Option String :=
  let selectedKey := selectPluralKey select baseKey count locale
  let fullKey := ns ++ "." ++ selectedKey
  match alookup messages fullKey with
  | some m => some m
  | none =>
    let otherKey := ns ++ "." ++ baseKey ++ "_other"
    match alookup messages otherKey with
    | some m => some m
    | none => none

/-- `extractPluralKeys(allMessages, namespace, baseKey)` from
`src/plural.ts`: list the plural-suffixed siblings of the base key that
actually resolve to a string in the namespace. -/
def extractPluralKeys (allMessages : TranslationFile) (ns baseKey : String) : List String :=
  match alookup allMessages ns with
  | none => []
  | some namespaceData =>
    (INTL_PLURAL_CATEGORIES.map (fun suffix => baseKey ++ suffix)).filter
      (fun keyWithSuffix => (getNestedValue namespaceData keyWithSuffix).isSome)

/-! ## index.ts -/

/-- `mergeRequirements(...requirements)` from `src/index.ts`: variadic
arguments are requirements or arrays of requirements; `.flat()` flattens
one level. -/
def mergeRequirements
    (requirements : List (TranslationRequirement ⊕ List TranslationRequirement)) :
    List TranslationRequirement :=
  requirements.flatMap (fun a =>
    match a with
    | .inl r => [r]
    | .inr rs => rs)

/-- JavaScript property assignment `m[k] = v` on an object with insertion
order: update the existing entry in place, or append a new one. -/
def recordSet (m : List (String × String)) (k v : String) : List (String × String) :=
  match alookup m k with
  | some _ => m.map (fun p => if p.1 = k then (k, v) else p)
  | none => m ++ [(k, v)]

/-- Body of the per-key loop of `pickMessages`: copy the direct key if it
resolves, then copy every discovered plural sibling. -/
def pickKeyInto (allMessages : TranslationFile) (nsMap : NamespaceTranslations)
    (ns key : String) (acc : List (String × String)) : List (String × String) :=
  let acc1 :=
    match getNestedValue nsMap key with
    | some v => recordSet acc (ns ++ "." ++ key) v
    | none => acc
  (extractPluralKeys allMessages ns key).foldl
    (fun a pluralKey =>
      match getNestedValue nsMap pluralKey with
      | some v => recordSet a (ns ++ "." ++ pluralKey) v
      | none => a)
    acc1

/-- `pickMessages(allMessages, requirements, locale)` from
`src/index.ts`: extract the required translations (and their plural
siblings) into a fresh locale-tagged message set. -/
def pickMessages (allMessages : TranslationFile) (requirements : List TranslationRequirement)
    (locale : String) : Messages :=
  { locale := locale
    translations :=
      requirements.foldl
        (fun acc req =>
          match alookup allMessages req.ns with
          | none => acc
          | some nsMap => req.keys.foldl (fun a k => pickKeyInto allMessages nsMap req.ns k a) acc)
        [] }

/-- `createTranslator(messages, requirement)` from `src/index.ts`: the
returned lookup function.  When the values contain a numeric `count`,
plural resolution is attempted first; then the literal key; a miss
returns the bare key; placeholders are substituted whenever values were
supplied. -/
def createTranslator (select : String → Int → String) (messages : Messages)
    (requirement : TranslationRequirement) (key : String)
    (values : Option PlaceholderValues) : String :=
  let ns := requirement.ns
  let locale := messages.locale
  let message : Option String :=
    match values with
    | some vs =>
      match alookup vs "count" with
      | some (.num c) => resolvePluralMessage select messages.translations ns key c locale
      | _ => none
    | none => none
  let message2 : Option String :=
    match message with
    | some m => some m
    | none => alookup messages.translations (ns ++ "." ++ key)
  match message2 with
  | none => key
  | some m =>
    match values with
    | some vs => replacePlaceholders m vs
    | none => m

/-! ## validation.ts -/

/-- A validation error or warning (`ValidationError`): taxonomy tag,
offending namespace and key, human-readable message, and for cross-locale
errors the target and reference locales. -/
structure VError where
  type : String
  ns : String
  key : String
  message : String
  locale : Option String
  referenceLocale : Option String
  deriving DecidableEq, Repr

/-- A validation result (`ValidationResult`): validity flag plus the
collected errors and warnings. -/
structure ValidationResult where
  valid : Bool
  errors : List VError
  warnings : List VError
  deriving DecidableEq, Repr

/-- JavaScript `Set.add` on an insertion-ordered set: keep the first
occurrence's position, ignore re-insertions. -/
def setAdd (acc : List String) (x : String) : List String :=
  if x ∈ acc then acc else acc ++ [x]

/-- `collectAllKeys(obj)` from `src/validation.ts`: the set of keys of the
namespace whose value is a string, in insertion order. -/
def collectAllKeys (obj : NamespaceTranslations) : List String :=
  obj.foldl
    (fun ks kv =>
      match kv.2 with
      | .str _ => setAdd ks kv.1
      | .obj _ => ks)
    []

/-- Whether a character is matched by the regular-expression dot (every
character except the JavaScript line terminators). -/
def isRegexDotChar (c : Char) : Bool :=
  !(c = '\n' || c = '\r' || c = Char.ofNat 0x2028 || c = Char.ofNat 0x2029)

/-- The match `key.match(/^(.+)_(one|other)$/)` of `validatePluralKeys`,
returning the base key (the greedy `(.+)` group) and the suffix category.
A key matches exactly when it ends in `_one` or `_other`, the remaining
base is non-empty, and the base contains no line terminator (which `.`
does not match). -/
def regexPluralMatch (key : String) : Option (String × String) :=
  let l := key.data
  if "_other".data.isSuffixOf l ∧ 6 < l.length ∧ (l.take (l.length - 6)).all isRegexDotChar then
    some (String.mk (l.take (l.length - 6)), "other")
  else if "_one".data.isSuffixOf l ∧ 4 < l.length ∧ (l.take (l.length - 4)).all isRegexDotChar then
    some (String.mk (l.take (l.length - 4)), "one")
  else none

/-- JavaScript `Map`/`Set` update used by `validatePluralKeys`: record a
plural suffix under its base key, keeping insertion order and ignoring
duplicate suffixes. -/
def mapAddSuffix : List (String × List String) → String → String → List (String × List String)
  | [], base, suffix => [(base, [suffix])]
  | (b, ss) :: rest, base, suffix =>
    if b = base then (b, if suffix ∈ ss then ss else ss ++ [suffix]) :: rest
    else (b, ss) :: mapAddSuffix rest base suffix

/-- The classification loop of `validatePluralKeys`: group the plural
suffixes found among the keys by their base key. -/
def classifyPlural (keys : List String) : List (String × List String) :=
  keys.foldl
    (fun m k =>
      match regexPluralMatch k with
      | some (b, s) => mapAddSuffix m b s
      | none => m)
    []

/-- The `missing-plural-one` error emitted by `validatePluralKeys`. -/
def mkMissingPluralOneError (ns base : String) : VError :=
  ⟨"missing-plural-one", ns, base,
    "Plural key \"" ++ base ++ "_one\" is required (Intl.PluralRules compatible)", none, none⟩

/-- The `missing-plural-other` error emitted by `validatePluralKeys`. -/
def mkMissingPluralOtherError (ns base : String) : VError :=
  ⟨"missing-plural-other", ns, base,
    "Plural key \"" ++ base ++ "_other\" is required (Intl.PluralRules compatible)", none, none⟩

/-- `validatePluralKeys(namespace, translations)` from
`src/validation.ts`: every base key with a detected `_one`/`_other`
sibling must have both a `_one` and an `_other` sibling. -/
def validatePluralKeys (ns : String) (translations : NamespaceTranslations) : List VError :=
  (classifyPlural (collectAllKeys translations)).flatMap
    (fun p =>
      (if "one" ∈ p.2 then [] else [mkMissingPluralOneError ns p.1])
        ++ (if "other" ∈ p.2 then [] else [mkMissingPluralOtherError ns p.1]))

/-- `validateNesting(namespace, translations)` from `src/validation.ts`:
every value must be a string; nested objects are `invalid-nesting`
errors. -/
def validateNesting (ns : String) (translations : NamespaceTranslations) : List VError :=
  translations.filterMap
    (fun kv =>
      match kv.2 with
      | .obj _ =>
        some ⟨"invalid-nesting", ns, kv.1,
          "Nested structures are not allowed. Use flat structure with dot notation (e.g., \"profile.name\"): \"" ++ kv.1 ++ "\"",
          none, none⟩
      | .str _ => none)

/-- The key-name pattern `/^[a-zA-Z_][a-zA-Z0-9_.]*$/` of
`validateKeyNames`. -/
def isValidKeyName (k : String) : Bool :=
  match k.data with
  | [] => false
  | c :: cs => (c.isAlpha || c = '_') && cs.all (fun d => d.isAlphanum || d = '_' || d = '.')

/-- `validateKeyNames(namespace, translations)` from
`src/validation.ts`. -/
def validateKeyNames (ns : String) (translations : NamespaceTranslations) : List VError :=
  translations.filterMap
    (fun kv =>
      if isValidKeyName kv.1 then none
      else
        some ⟨"invalid-key-name", ns, kv.1,
          "Invalid key name: \"" ++ kv.1 ++ "\" (only alphanumeric, underscore, and dots allowed)",
          none, none⟩)

/-- A character the greedy group `([^\x7b\x7d]+)` of the placeholder
pattern can match: anything but a brace. -/
def nonBrace (c : Char) : Bool :=
  !(c == '{') && !(c == '}')

/-- Fuel-driven global match loop
`value.matchAll(/\x7b\x7b([^\x7b\x7d]+)\x7d\x7d/g)` of
`validatePlaceholders`: return the captured placeholder names in order.
On a failed match attempt the scan advances one character; on a
successful match it continues after the match.  Each step consumes at
least one character, so fuel equal to the length of the list (as
supplied by `scanPlaceholders`) makes the fuel bound immaterial. -/
def scanPlaceholdersFuel : Nat → List Char → List String
  | _, [] => []
  | _, [_] => []
  | 0, _ => []
  | n + 1, c1 :: c2 :: rest =>
    if c1 = '{' ∧ c2 = '{' then
      match rest.dropWhile nonBrace with
      | '}' :: '}' :: rest' =>
        if (rest.takeWhile nonBrace).isEmpty then scanPlaceholdersFuel n (c2 :: rest)
        else String.mk (rest.takeWhile nonBrace) :: scanPlaceholdersFuel n rest'
      | _ => scanPlaceholdersFuel n (c2 :: rest)
    else scanPlaceholdersFuel n (c2 :: rest)

/-- The placeholder names captured by the global placeholder pattern of
`validatePlaceholders`, in match order. -/
def scanPlaceholders (l : List Char) : List String :=
  scanPlaceholdersFuel l.length l

/-- The placeholder-identifier pattern `/^[a-zA-Z_][a-zA-Z0-9_]*$/` of
`validatePlaceholders`. -/
def isPlaceholderIdent (name : String) : Bool :=
  match name.data with
  | [] => false
  | c :: cs => (c.isAlpha || c = '_') && cs.all (fun d => d.isAlphanum || d = '_')

/-- `validatePlaceholders(namespace, translations)` from
`src/validation.ts`: every `\x7b\x7b…\x7d\x7d` span inside a string value
must enclose a valid identifier. -/
def validatePlaceholders (ns : String) (translations : NamespaceTranslations) : List VError :=
  translations.flatMap
    (fun kv =>
      match kv.2 with
      | .str s =>
        (scanPlaceholders s.data).filterMap
          (fun name =>
            if isPlaceholderIdent name then none
            else
              some ⟨"invalid-placeholder", ns, kv.1,
                "Invalid placeholder: \"\x7b\x7b" ++ name ++ "\x7d\x7d\" (only alphanumeric and underscore allowed)",
                none, none⟩)
      | .obj _ => [])

/-- `validateTranslations(translations)` from `src/validation.ts`: run
the four per-namespace validators over every namespace, accumulating
errors; the result is valid when no error was collected. -/
def validateTranslations (translations : TranslationFile) : ValidationResult :=
  let errors :=
    translations.flatMap
      (fun p =>
        validatePluralKeys p.1 p.2 ++ validateNesting p.1 p.2
          ++ validateKeyNames p.1 p.2 ++ validatePlaceholders p.1 p.2)
  ⟨errors.isEmpty, errors, []⟩

/-- The iteration order of `Object.keys(localeTranslations)`. -/
def crossLocales (lt : LocaleTranslations) : List String :=
  lt.map Prod.fst

/-- The namespace union built by `validateCrossLocale`: all namespaces of
all locales, in first-encountered order. -/
def crossNamespaces (lt : LocaleTranslations) : List String :=
  (crossLocales lt).foldl
    (fun acc loc =>
      match alookup lt loc with
      | some tf => tf.foldl (fun a p => setAdd a p.1) acc
      | none => acc)
    []

/-- The key set `validateCrossLocale` computes for one locale and one
namespace: the collected keys when the namespace is present, and the
empty set otherwise. -/
def nsKeysFor (lt : LocaleTranslations) (loc ns : String) : List String :=
  match alookup lt loc with
  | some tf =>
    match alookup tf ns with
    | some m => collectAllKeys m
    | none => []
  | none => []

/-- The `missing-key` error emitted by `validateCrossLocale`. -/
def mkMissingKeyError (ns k tgt ref : String) : VError :=
  ⟨"missing-key", ns, k,
    "Key \"" ++ k ++ "\" exists in \"" ++ ref ++ "\" but missing in \"" ++ tgt ++ "\"",
    some tgt, some ref⟩

/-- The `extra-key` error emitted by `validateCrossLocale`. -/
def mkExtraKeyError (ns k tgt ref : String) : VError :=
  ⟨"extra-key", ns, k,
    "Key \"" ++ k ++ "\" exists in \"" ++ tgt ++ "\" but not in \"" ++ ref ++ "\"",
    some tgt, some ref⟩

/-- `validateCrossLocale(localeTranslations)` from `src/validation.ts`:
with fewer than two locales the result is valid with no errors;
otherwise the first locale is the reference, and for every namespace in
the union and every other locale, reference keys missing from the target
are `missing-key` errors and target keys absent from the reference are
`extra-key` errors. -/
def validateCrossLocale (lt : LocaleTranslations) : ValidationResult :=
  let locales := crossLocales lt
  if locales.length < 2 then ⟨true, [], []⟩
  else
    let referenceLocale := locales.headD ""
    let errors :=
      (crossNamespaces lt).flatMap
        (fun ns =>
          let referenceKeys := nsKeysFor lt referenceLocale ns
          locales.tail.flatMap
            (fun targetLocale =>
              let targetKeys := nsKeysFor lt targetLocale ns
              (referenceKeys.filter (fun k => decide (k ∉ targetKeys))).map
                  (fun k => mkMissingKeyError ns k targetLocale referenceLocale)
                ++ (targetKeys.filter (fun k => decide (k ∉ referenceKeys))).map
                  (fun k => mkExtraKeyError ns k targetLocale referenceLocale)))
    ⟨errors.isEmpty, errors, []⟩

/-! ## Definitions modelled from the spec -/

/-- Modelled from the spec: the CLDR-class plural classifier supplied by
the host `Intl.PluralRules` API (spec §4.2), which is not part of the
repository sources, instantiated for the locales exercised below.
English selects `"one"` exactly for a count of 1 and `"other"`
otherwise; Japanese has no one/other distinction and always selects
`"other"`. -/
def intlPluralSelect (locale : String) (count : Int) : String :=
  if locale = "ja" then "other"
  else if count = 1 then "one" else "other"

/-- Modelled from the spec: the locale-addressing requirement resolver of
§4.1 ("`locale` must address an existing locale entry in `catalog`; if
absent, the resolver returns an empty (but well-formed) resolved set
rather than failing").  The current `index.ts` exercised by the
locale-grouped `pickMessages` tests is absent from the source snapshot,
so the locale-addressing step is modelled here on top of the per-file
extraction loop of `pickMessages`. -/
def pickMessagesLocaleGrouped (catalog : LocaleTranslations)
    (requirements : List TranslationRequirement) (locale : String) : Messages :=
  match alookup catalog locale with
  | none => { locale := locale, translations := [] }
  | some tf => pickMessages tf requirements locale

/-! ## Template segmentations

The specification describes `replacePlaceholders` as a simultaneous
global substitution over the template (§4.4).  To state that claim, a
template is presented as a sequence of segments: literal text and
`\x7b\x7bname\x7d\x7d` placeholder spans.  `render` is the underlying
template string, and `substSegs` is the simultaneous substitution the
spec describes: every placeholder whose name is bound in the value map
is replaced by the stringified value, all other text is left verbatim. -/

/-- A segment of a template: literal text or one placeholder span. -/
inductive Segment where
  | lit (s : String)
  | ph (name : String)

/-- The characters of the placeholder span `\x7b\x7bname\x7d\x7d`. -/
def phData (n : String) : List Char :=
  '{' :: '{' :: (n.data ++ ['}', '}'])

/-- The placeholder string `\x7b\x7bname\x7d\x7d` built by
`replacePlaceholders`. -/
def phStr (n : String) : String :=
  "\x7b\x7b" ++ n ++ "\x7d\x7d"

/-- The characters of one segment of the template. -/
def renderSeg : Segment → List Char
  | .lit s => s.data
  | .ph n => phData n

/-- The template string of a segmentation. -/
def render (segs : List Segment) : String :=
  String.mk (segs.flatMap renderSeg)

/-- One segment after simultaneous substitution: a placeholder bound in
the value map becomes its stringified value, everything else is kept. -/
def substSegChars (values : PlaceholderValues) : Segment → List Char
  | .lit s => s.data
  | .ph n =>
    match alookup values n with
    | some v => (jsString v).data
    | none => phData n

/-- Simultaneous global placeholder substitution as described by the
spec: replace each bound placeholder by its value, leave unmatched
placeholders and literal text verbatim. -/
def substSegs (values : PlaceholderValues) (segs : List Segment) : String :=
  String.mk (segs.flatMap (substSegChars values))

/-- A bare-identifier character: letter, digit or underscore. -/
def isIdentChar (c : Char) : Bool :=
  c.isAlpha || c.isDigit || c == '_'

/-- A non-empty bare identifier. -/
def identName (n : String) : Bool :=
  !n.data.isEmpty && n.data.all isIdentChar

/-- Well-formedness of one segment: literal text contains no brace
characters, and a placeholder name is a bare identifier. -/
def wfSeg : Segment → Bool
  | .lit s => s.data.all nonBrace
  | .ph n => identName n

/-- A placeholder value that does not interfere with later substitution
steps: its string form contains no `\x7b` (which could assemble a new
placeholder) and no `$` (whose JavaScript replacement-pattern handling
is outside the model). -/
def inertValue (v : PValue) : Bool :=
  (jsString v).data.all (fun c => !(c == '{') && !(c == '$'))

/-! ## Proof-level views of the resolver

`pickMessages` builds its output by a sequence of record assignments.
The assignments generated for one requirement key (`keyOps`) and for one
whole requirement (`reqOps`) do not depend on the accumulator, which
`pickKeyInto_eq_applyOps`/`pickMessages_eq_applyOps` below make
precise. -/

/-- Run a list of record assignments in order. -/
def applyOps (m : List (String × String)) (ops : List (String × String)) :
    List (String × String) :=
  ops.foldl (fun a kv => recordSet a kv.1 kv.2) m

/-- The record assignments the per-key loop of `pickMessages` performs:
the direct key (when it resolves) followed by the discovered plural
siblings. -/
def keyOps (allMessages : TranslationFile) (nsMap : NamespaceTranslations)
    (ns key : String) : List (String × String) :=
  (match getNestedValue nsMap key with
    | some v => [(ns ++ "." ++ key, v)]
    | none => [])
    ++ (extractPluralKeys allMessages ns key).flatMap
      (fun pluralKey =>
        match getNestedValue nsMap pluralKey with
        | some v => [(ns ++ "." ++ pluralKey, v)]
        | none => [])

/-- The record assignments one requirement generates. -/
def reqOps (allMessages : TranslationFile) (req : TranslationRequirement) :
    List (String × String) :=
  match alookup allMessages req.ns with
  | none => []
  | some nsMap => req.keys.flatMap (keyOps allMessages nsMap req.ns)

/-- A list of assignments is consistent when equal keys carry equal
values. -/
def OpsConsistent (ops : List (String × String)) : Prop :=
  ∀ p ∈ ops, ∀ q ∈ ops, p.1 = q.1 → p.2 = q.2

/-- A namespace map in the canonical flat catalog shape: every value is
a string. -/
def flatNs (m : NamespaceTranslations) : Prop :=
  ∀ kv ∈ m, kv.2.isStr = true

/-- A translation file in the canonical flat catalog shape. -/
def flatCatalog (tf : TranslationFile) : Prop :=
  ∀ p ∈ tf, flatNs p.2

instance (m : NamespaceTranslations) : Decidable (flatNs m) :=
  inferInstanceAs (Decidable (∀ kv ∈ m, kv.2.isStr = true))

instance (tf : TranslationFile) : Decidable (flatCatalog tf) :=
  inferInstanceAs (Decidable (∀ p ∈ tf, flatNs p.2))

/-! ## Concrete inputs used by witnesses and counterexamples -/

/-- Catalog of the spec's plural scenario: `itemCount_one`,
`itemCount_other` and a plain `submit` key in namespace `common`. -/
def exCatalog : TranslationFile :=
  [("common",
    [("itemCount_one", .str "1 item"),
     ("itemCount_other", .str "\x7b\x7bcount\x7d\x7d items"),
     ("submit", .str "Submit")])]

/-- Requirement of the spec's plural scenario. -/
def exReq : TranslationRequirement :=
  ⟨"common", ["itemCount"]⟩

/-- A resolved set holding both a literal `common.item` message and its
`common.item_other` plural sibling. -/
def exMsgsLiteralAndOther : Messages :=
  ⟨"en", [("common.item", "LITERAL"), ("common.item_other", "OTHER")]⟩

/-- A resolved set holding only an `_other` plural sibling (the spec's
fallback scenario). -/
def exMsgsOnlyOther : Messages :=
  ⟨"en", [("common.itemCount_other", "\x7b\x7bcount\x7d\x7d items")]⟩

/-- A resolved set holding a literal `common.itemCount` message and its
`_other` sibling. -/
def exMsgsLiteralCount : Messages :=
  ⟨"en",
   [("common.itemCount", "literal \x7b\x7bcount\x7d\x7d"),
    ("common.itemCount_other", "\x7b\x7bcount\x7d\x7d items")]⟩

/-- An empty resolved set. -/
def exMsgsEmpty : Messages :=
  ⟨"en", []⟩

/-- A locale-grouped catalog holding only English. -/
def exLocaleCatalog : LocaleTranslations :=
  [("en", exCatalog)]

/-- Template segmentation of the chained-substitution counterexample:
the single placeholder `\x7b\x7ba\x7d\x7d`. -/
def cexSegs : List Segment :=
  [.ph "a"]

/-- Value map of the chained-substitution counterexample: the value
bound to `a` is itself the placeholder `\x7b\x7bb\x7d\x7d`. -/
def cexVals : PlaceholderValues :=
  [("a", .str "\x7b\x7bb\x7d\x7d"), ("b", .str "X")]

/-- A well-formed greeting template with one unmatched placeholder. -/
def exSegs : List Segment :=
  [.lit "Hello ", .ph "name", .lit "! ", .ph "missing"]

/-- Values for the greeting template. -/
def exSegVals : PlaceholderValues :=
  [("name", .str "World"), ("unused", .num 3)]

/-- Namespace map whose only plural-suffixed key uses the category
`few`. -/
def cexFewCatalog : TranslationFile :=
  [("common", [("item_few", .str "x")])]

/-- Namespace map with an `_one` sibling but no `_other` sibling. -/
def exMissingOtherCatalog : TranslationFile :=
  [("common", [("itemCount_one", .str "1 item")])]

/-- The spec's cross-locale scenario: `en.common` has `submit` and
`cancel`, `ja.common` only `submit`. -/
def exCrossCatalog : LocaleTranslations :=
  [("en", [("common", [("submit", .str "Submit"), ("cancel", .str "Cancel")])]),
   ("ja", [("common", [("submit", .str "sousin")])])]

/-! ## Basic lemmas -/

theorem string_data_inj {a b : String} (h : a.data = b.data) : a = b := by
  cases a
  cases b
  exact congrArg String.mk h

theorem string_data_append (a b : String) : (a ++ b).data = a.data ++ b.data :=
  rfl

theorem string_append_assoc (a b c : String) : a ++ b ++ c = a ++ (b ++ c) := by
  apply string_data_inj
  simp [string_data_append]

theorem string_append_left_cancel {a b c : String} (h : a ++ b = a ++ c) : b = c := by
  apply string_data_inj
  have h2 : a.data ++ b.data = a.data ++ c.data := by
    rw [← string_data_append, ← string_data_append, h]
  exact List.append_cancel_left h2

theorem alookup_mem {α β : Type} [DecidableEq α] {l : List (α × β)} {a : α} {b : β}
    (h : alookup l a = some b) : (a, b) ∈ l := by
  induction l with
  | nil => exact absurd h (by simp [alookup])
  | cons p rest ih =>
    obtain ⟨k, v⟩ := p
    by_cases hk : k = a
    · subst hk
      have h2 : some v = some b := by simpa [alookup] using h
      injection h2 with h3
      subst h3
      exact List.Mem.head _
    · have h2 : alookup rest a = some b := by simpa [alookup, hk] using h
      exact List.Mem.tail _ (ih h2)

theorem alookup_eq_none {α β : Type} [DecidableEq α] {l : List (α × β)} {a : α} :
    alookup l a = none ↔ a ∉ l.map Prod.fst := by
  induction l with
  | nil => simp [alookup]
  | cons p rest ih =>
    obtain ⟨k, v⟩ := p
    by_cases hk : k = a
    · subst hk
      simp [alookup]
    · simp [alookup, if_neg hk, ih, Ne.symm hk]

theorem alookup_append {α β : Type} [DecidableEq α] (l1 l2 : List (α × β)) (a : α) :
    alookup (l1 ++ l2) a =
      match alookup l1 a with
      | some b => some b
      | none => alookup l2 a := by
  induction l1 with
  | nil => simp [alookup]
  | cons p rest ih =>
    obtain ⟨k, v⟩ := p
    by_cases hk : k = a
    · simp [alookup, if_pos hk]
    · simp only [List.cons_append, alookup, if_neg hk]
      exact ih

theorem foldl_preserve {α β : Type} {P : β → Prop} {f : β → α → β} {l : List α}
    (hstep : ∀ a ∈ l, ∀ acc, P acc → P (f acc a)) :
    ∀ acc, P acc → P (l.foldl f acc) := by
  induction l with
  | nil => intro acc h; simpa using h
  | cons x xs ih =>
    intro acc h
    simp only [List.foldl_cons]
    exact ih (fun a ha acc hacc => hstep a (List.mem_cons_of_mem _ ha) acc hacc)
      (f acc x) (hstep x (List.mem_cons_self _ _) acc h)

theorem foldl_preserve_mem {α β : Type} {Q : β → Prop} {f : List β → α → List β} {l : List α}
    (hstep : ∀ a ∈ l, ∀ acc, (∀ x ∈ acc, Q x) → ∀ x ∈ f acc a, Q x) :
    ∀ acc, (∀ x ∈ acc, Q x) → ∀ x ∈ l.foldl f acc, Q x :=
  @foldl_preserve _ _ (fun m => ∀ x ∈ m, Q x) f l hstep

/-! ## Lemmas about `recordSet` -/

theorem mem_recordSet {m : List (String × String)} {k v : String} {kv : String × String}
    (h : kv ∈ recordSet m k v) : kv ∈ m ∨ kv = (k, v) := by
  unfold recordSet at h
  cases hl : alookup m k with
  | some w =>
    rw [hl] at h
    obtain ⟨p, hp, hfp⟩ := List.mem_map.mp h
    by_cases hpk : p.1 = k
    · rw [if_pos hpk] at hfp
      exact Or.inr hfp.symm
    · rw [if_neg hpk] at hfp
      exact Or.inl (hfp ▸ hp)
  | none =>
    rw [hl] at h
    rcases List.mem_append.mp h with h1 | h1
    · exact Or.inl h1
    · simp only [List.mem_singleton] at h1
      exact Or.inr h1

theorem alookup_overwrite_self (m : List (String × String)) (k v : String) :
    alookup (m.map (fun p => if p.1 = k then (k, v) else p)) k =
      (alookup m k).map (fun _ => v) := by
  induction m with
  | nil => rfl
  | cons p rest ih =>
    obtain ⟨a, b⟩ := p
    simp only [List.map_cons]
    by_cases hak : a = k
    · rw [if_pos (show (a, b).1 = k from hak)]
      simp only [alookup]
      simp [hak]
    · rw [if_neg (show ¬ (a, b).1 = k from hak)]
      simp only [alookup, if_neg hak]
      exact ih

theorem alookup_overwrite_ne (m : List (String × String)) (k v a : String) (h : a ≠ k) :
    alookup (m.map (fun p => if p.1 = k then (k, v) else p)) a = alookup m a := by
  induction m with
  | nil => rfl
  | cons p rest ih =>
    obtain ⟨c, d⟩ := p
    by_cases hck : c = k
    · subst hck
      simp only [List.map_cons, if_pos rfl]
      simp only [alookup, if_neg (fun hh : c = a => h hh.symm)]
      exact ih
    · simp only [List.map_cons, if_neg hck]
      by_cases hca : c = a
      · simp [alookup, if_pos hca]
      · simp only [alookup, if_neg hca]
        exact ih

theorem alookup_recordSet_self (m : List (String × String)) (k v : String) :
    alookup (recordSet m k v) k = some v := by
  unfold recordSet
  cases hl : alookup m k with
  | some w =>
    rw [alookup_overwrite_self, hl]
    rfl
  | none =>
    rw [alookup_append, hl]
    simp [alookup]

theorem alookup_recordSet_ne (m : List (String × String)) (k v k' : String) (h : k' ≠ k) :
    alookup (recordSet m k v) k' = alookup m k' := by
  unfold recordSet
  cases hl : alookup m k with
  | some w => rw [alookup_overwrite_ne _ _ _ _ h]
  | none =>
    rw [alookup_append]
    cases hk' : alookup m k' with
    | some b => rfl
    | none => simp [alookup, if_neg (fun hh : k = k' => h hh.symm)]

theorem recordSet_keys_nodup {m : List (String × String)} {k v : String}
    (h : (m.map Prod.fst).Nodup) : ((recordSet m k v).map Prod.fst).Nodup := by
  unfold recordSet
  cases hl : alookup m k with
  | some w =>
    have hkeys : (m.map (fun p => if p.1 = k then (k, v) else p)).map Prod.fst = m.map Prod.fst := by
      rw [List.map_map]
      apply List.map_congr_left
      intro p _
      by_cases hpk : p.1 = k
      · simp [hpk]
      · simp [hpk]
    rw [hkeys]
    exact h
  | none =>
    rw [List.map_append]
    simp only [List.map_cons, List.map_nil]
    apply List.Nodup.append h (List.nodup_singleton k)
    intro a ha hb
    simp only [List.mem_singleton] at hb
    subst hb
    exact (alookup_eq_none.mp hl) ha

theorem overwrite_eq_self {m : List (String × String)} {k v : String}
    (hnd : (m.map Prod.fst).Nodup) (h : alookup m k = some v) :
    m.map (fun p => if p.1 = k then (k, v) else p) = m := by
  induction m with
  | nil => rfl
  | cons p rest ih =>
    obtain ⟨a, b⟩ := p
    simp only [List.map_cons, List.nodup_cons] at hnd
    simp only [List.map_cons]
    by_cases hak : a = k
    · subst hak
      have h2 : some b = some v := by simpa [alookup] using h
      injection h2 with h3
      subst h3
      rw [if_pos (show (a, b).1 = a from rfl)]
      have heach : ∀ p ∈ rest, (if p.1 = a then (a, b) else p) = p := by
        intro p hp
        refine if_neg (fun hpa => hnd.1 ?_)
        exact hpa ▸ List.mem_map_of_mem Prod.fst hp
      rw [List.map_congr_left heach]
      simp
    · have h2 : alookup rest k = some v := by simpa [alookup, hak] using h
      rw [if_neg (show ¬ (a, b).1 = k from hak), ih hnd.2 h2]

theorem recordSet_eq_self {m : List (String × String)} {k v : String}
    (hnd : (m.map Prod.fst).Nodup) (h : alookup m k = some v) : recordSet m k v = m := by
  have h2 := overwrite_eq_self hnd h
  unfold recordSet
  rw [h]
  exact h2

/-! ## C2, C3, C4, C10: the translator's resolution protocol -/

theorem createTranslator_count_eq (select : String → Int → String) (msgs : Messages)
    (req : TranslationRequirement) (key : String) (vs : PlaceholderValues) (c : Int)
    (hc : alookup vs "count" = some (.num c)) :
    createTranslator select msgs req key (some vs) =
      match
        (match resolvePluralMessage select msgs.translations req.ns key c msgs.locale with
          | some m => some m
          | none => alookup msgs.translations (req.ns ++ "." ++ key)) with
      | none => key
      | some m => replacePlaceholders m vs := by
  simp only [createTranslator, hc]

theorem createTranslator_nocount_eq (select : String → Int → String) (msgs : Messages)
    (req : TranslationRequirement) (key : String) (vs : PlaceholderValues)
    (hc : ∀ c : Int, alookup vs "count" ≠ some (.num c)) :
    createTranslator select msgs req key (some vs) =
      match alookup msgs.translations (req.ns ++ "." ++ key) with
      | none => key
      | some m => replacePlaceholders m vs := by
  cases hcc : alookup vs "count" with
  | none => simp only [createTranslator, hcc]
  | some v =>
    cases v with
    | str s => simp only [createTranslator, hcc]
    | num n => exact absurd hcc (hc n)

/-- C2 counterexample: in a resolved set holding both the literal
`common.item` and the sibling `common.item_other`, a call with `count = 1`
(for which the classified key `common.item_one` is absent) returns the
`_other` variant, not the literal message the claim requires. -/
theorem translator_literal_preference_cex :
    alookup exMsgsLiteralAndOther.translations ("common" ++ "." ++ "item") = some "LITERAL"
      ∧ alookup exMsgsLiteralAndOther.translations
          ("common" ++ "." ++ ("item" ++ "_" ++ intlPluralSelect exMsgsLiteralAndOther.locale 1)) = none
      ∧ createTranslator intlPluralSelect exMsgsLiteralAndOther ⟨"common", ["item"]⟩ "item"
          (some [("count", PValue.num 1)]) = "OTHER"
      ∧ createTranslator intlPluralSelect exMsgsLiteralAndOther ⟨"common", ["item"]⟩ "item"
          (some [("count", PValue.num 1)]) ≠ "LITERAL" := by
  refine ⟨by decide, by decide, by decide, by decide⟩

/-- C2 (amended): with a numeric `count`, the lookup order is classified
plural key first, then the fixed `_other` fallback, and the literal
`namespace.key` only after both fail; in particular when the classified
key is absent and `_other` is present the translator returns the
`_other` message (placeholder-substituted), regardless of whether the
literal entry exists. -/
theorem translator_other_before_literal (select : String → Int → String) (msgs : Messages)
    (req : TranslationRequirement) (key : String) (vs : PlaceholderValues) (c : Int) (m : String)
    (hc : alookup vs "count" = some (.num c))
    (hclass : alookup msgs.translations (req.ns ++ "." ++ (key ++ "_" ++ select msgs.locale c)) = none)
    (hother : alookup msgs.translations (req.ns ++ "." ++ key ++ "_other") = some m) :
    createTranslator select msgs req key (some vs) = replacePlaceholders m vs := by
  rw [createTranslator_count_eq select msgs req key vs c hc]
  simp only [resolvePluralMessage, selectPluralKey, hclass, hother]

/-- Witness for C2's amended theorem at the counterexample input. -/
theorem translator_other_before_literal_witness :
    alookup [("count", PValue.num 1)] "count" = some (.num 1)
      ∧ alookup exMsgsLiteralAndOther.translations
          ("common" ++ "." ++ ("item" ++ "_" ++ intlPluralSelect exMsgsLiteralAndOther.locale 1)) = none
      ∧ alookup exMsgsLiteralAndOther.translations ("common" ++ "." ++ "item" ++ "_other") = some "OTHER"
      ∧ createTranslator intlPluralSelect exMsgsLiteralAndOther ⟨"common", ["item"]⟩ "item"
          (some [("count", PValue.num 1)]) = replacePlaceholders "OTHER" [("count", PValue.num 1)] :=
  ⟨by decide, by decide, by decide,
    translator_other_before_literal intlPluralSelect exMsgsLiteralAndOther ⟨"common", ["item"]⟩
      "item" [("count", PValue.num 1)] 1 "OTHER" (by decide) (by decide) (by decide)⟩

/-- C3: when the resolved set holds an `_other` sibling for the base key
and no sibling for any other plural category, a call with any numeric
`count` resolves to the `_other` string and substitutes placeholders
into it, for every classifier that returns a plural category. -/
theorem translator_other_fallback_law (select : String → Int → String) (msgs : Messages)
    (req : TranslationRequirement) (key : String) (vs : PlaceholderValues) (c : Int) (m : String)
    (hc : alookup vs "count" = some (.num c))
    (hsel : select msgs.locale c ∈ ["zero", "one", "two", "few", "many", "other"])
    (hother : alookup msgs.translations (req.ns ++ "." ++ key ++ "_other") = some m)
    (hnone : ∀ cat ∈ (["zero", "one", "two", "few", "many"] : List String),
        alookup msgs.translations (req.ns ++ "." ++ (key ++ "_" ++ cat)) = none) :
    createTranslator select msgs req key (some vs) = replacePlaceholders m vs := by
  rw [createTranslator_count_eq select msgs req key vs c hc]
  by_cases hcat : select msgs.locale c = "other"
  · have hkey : req.ns ++ "." ++ (key ++ "_" ++ "other") = req.ns ++ "." ++ key ++ "_other" := by
      have hoth : ("_" : String) ++ "other" = "_other" := by decide
      rw [string_append_assoc key "_" "other", hoth, ← string_append_assoc (req.ns ++ ".") key "_other"]
    have hclassified :
        alookup msgs.translations (req.ns ++ "." ++ (key ++ "_" ++ select msgs.locale c)) = some m := by
      rw [hcat, hkey]
      exact hother
    simp only [resolvePluralMessage, selectPluralKey, hclassified]
  · have hcat5 : select msgs.locale c ∈ (["zero", "one", "two", "few", "many"] : List String) := by
      simp only [List.mem_cons, List.mem_singleton, List.not_mem_nil, or_false] at hsel ⊢
      rcases hsel with h | h | h | h | h | h
      all_goals simp_all
    simp only [resolvePluralMessage, selectPluralKey, hnone _ hcat5, hother]

/-- Witness for C3 at the spec's fallback scenario: with only
`itemCount_other` present, `count = 1` yields the substituted `_other`
string `"1 items"`. -/
theorem translator_other_fallback_law_witness :
    alookup [("count", PValue.num 1)] "count" = some (.num 1)
      ∧ intlPluralSelect exMsgsOnlyOther.locale 1 ∈ ["zero", "one", "two", "few", "many", "other"]
      ∧ alookup exMsgsOnlyOther.translations ("common" ++ "." ++ "itemCount" ++ "_other")
          = some "\x7b\x7bcount\x7d\x7d items"
      ∧ createTranslator intlPluralSelect exMsgsOnlyOther ⟨"common", ["itemCount"]⟩ "itemCount"
          (some [("count", PValue.num 1)])
        = replacePlaceholders "\x7b\x7bcount\x7d\x7d items" [("count", PValue.num 1)]
      ∧ createTranslator intlPluralSelect exMsgsOnlyOther ⟨"common", ["itemCount"]⟩ "itemCount"
          (some [("count", PValue.num 1)]) = "1 items" :=
  ⟨by decide, by decide, by decide,
    translator_other_fallback_law intlPluralSelect exMsgsOnlyOther ⟨"common", ["itemCount"]⟩
      "itemCount" [("count", PValue.num 1)] 1 "\x7b\x7bcount\x7d\x7d items"
      (by decide) (by decide) (by decide) (by decide),
    by decide⟩

/-- C4: when neither the classified plural key, nor the literal key, nor
the `_other` fallback resolves, the translator returns the bare key
unchanged (and, being a total function, never throws). -/
theorem translator_miss_returns_key (select : String → Int → String) (msgs : Messages)
    (req : TranslationRequirement) (key : String) (values : Option PlaceholderValues)
    (hclass : ∀ c : Int,
        alookup msgs.translations (req.ns ++ "." ++ (key ++ "_" ++ select msgs.locale c)) = none)
    (hother : alookup msgs.translations (req.ns ++ "." ++ key ++ "_other") = none)
    (hlit : alookup msgs.translations (req.ns ++ "." ++ key) = none) :
    createTranslator select msgs req key values = key := by
  cases values with
  | none =>
    simp only [createTranslator, hlit]
  | some vs =>
    cases hcc : alookup vs "count" with
    | none => simp only [createTranslator, hcc, hlit]
    | some v =>
      cases v with
      | str s => simp only [createTranslator, hcc, hlit]
      | num c =>
        simp only [createTranslator, hcc, resolvePluralMessage, selectPluralKey, hclass c,
          hother, hlit]

/-- Witness for C4: the spec's miss scenario `t("doesNotExist")` on an
empty resolved set. -/
theorem translator_miss_returns_key_witness :
    (∀ c : Int,
        alookup exMsgsEmpty.translations
          ("common" ++ "." ++ ("doesNotExist" ++ "_" ++ intlPluralSelect exMsgsEmpty.locale c)) = none)
      ∧ alookup exMsgsEmpty.translations ("common" ++ "." ++ "doesNotExist" ++ "_other") = none
      ∧ alookup exMsgsEmpty.translations ("common" ++ "." ++ "doesNotExist") = none
      ∧ createTranslator intlPluralSelect exMsgsEmpty ⟨"common", ["submit"]⟩ "doesNotExist" none
          = "doesNotExist" :=
  ⟨fun _ => rfl, by decide, by decide,
    translator_miss_returns_key intlPluralSelect exMsgsEmpty ⟨"common", ["submit"]⟩ "doesNotExist"
      none (fun _ => rfl) (by decide) (by decide)⟩

/-- C10: when the supplied values contain a `count` entry that is not a
number, no plural resolution happens: the translator resolves only the
literal `namespace.key` (returning the bare key on a miss), and the
non-numeric count value still takes part in placeholder substitution. -/
theorem translator_nonnumeric_count_literal (select : String → Int → String) (msgs : Messages)
    (req : TranslationRequirement) (key : String) (vs : PlaceholderValues) (s : String)
    (hc : alookup vs "count" = some (.str s)) :
    createTranslator select msgs req key (some vs) =
      match alookup msgs.translations (req.ns ++ "." ++ key) with
      | some m => replacePlaceholders m vs
      | none => key := by
  rw [createTranslator_nocount_eq select msgs req key vs (fun c hcn => by rw [hc] at hcn; cases hcn)]
  cases alookup msgs.translations (req.ns ++ "." ++ key) with
  | none => rfl
  | some m => rfl

/-- Witness for C10: `count` bound to the string `"5"` resolves the
literal `common.itemCount` entry and substitutes the string into it. -/
theorem translator_nonnumeric_count_literal_witness :
    alookup [("count", PValue.str "5")] "count" = some (.str "5")
      ∧ createTranslator intlPluralSelect exMsgsLiteralCount ⟨"common", ["itemCount"]⟩ "itemCount"
          (some [("count", PValue.str "5")])
        = (match alookup exMsgsLiteralCount.translations ("common" ++ "." ++ "itemCount") with
          | some m => replacePlaceholders m [("count", PValue.str "5")]
          | none => "itemCount")
      ∧ createTranslator intlPluralSelect exMsgsLiteralCount ⟨"common", ["itemCount"]⟩ "itemCount"
          (some [("count", PValue.str "5")]) = "literal 5" :=
  ⟨by decide,
    translator_nonnumeric_count_literal intlPluralSelect exMsgsLiteralCount ⟨"common", ["itemCount"]⟩
      "itemCount" [("count", PValue.str "5")] "5" (by decide),
    by decide⟩

/-! ## C5: missing locales -/

/-- C5: a locale that does not address an existing locale entry of the
catalog yields a well-formed resolved set with no translation entries,
tagged with the requested locale; no failure occurs. -/
theorem pickMessages_missing_locale_empty (catalog : LocaleTranslations)
    (reqs : List TranslationRequirement) (locale : String)
    (h : alookup catalog locale = none) :
    pickMessagesLocaleGrouped catalog reqs locale = ⟨locale, []⟩ := by
  unfold pickMessagesLocaleGrouped
  rw [h]

/-- Witness for C5: requesting `"fr"` from an English-only catalog. -/
theorem pickMessages_missing_locale_empty_witness :
    alookup exLocaleCatalog "fr" = none
      ∧ pickMessagesLocaleGrouped exLocaleCatalog [exReq] "fr" = ⟨"fr", []⟩ :=
  ⟨rfl, pickMessages_missing_locale_empty exLocaleCatalog [exReq] "fr" rfl⟩

/-! ## The assignment view of `pickMessages` -/

theorem applyOps_append (m : List (String × String)) (ops1 ops2 : List (String × String)) :
    applyOps m (ops1 ++ ops2) = applyOps (applyOps m ops1) ops2 := by
  simp [applyOps, List.foldl_append]

theorem pickKeyInto_eq_applyOps (aM : TranslationFile) (nsMap : NamespaceTranslations)
    (ns key : String) (acc : List (String × String)) :
    pickKeyInto aM nsMap ns key acc = applyOps acc (keyOps aM nsMap ns key) := by
  unfold pickKeyInto keyOps
  rw [applyOps_append]
  have hdirect :
      applyOps acc
          (match getNestedValue nsMap key with
            | some v => [(ns ++ "." ++ key, v)]
            | none => []) =
        (match getNestedValue nsMap key with
          | some v => recordSet acc (ns ++ "." ++ key) v
          | none => acc) := by
    cases getNestedValue nsMap key with
    | some v => rfl
    | none => rfl
  rw [hdirect]
  generalize (match getNestedValue nsMap key with
    | some v => recordSet acc (ns ++ "." ++ key) v
    | none => acc) = acc1
  induction (extractPluralKeys aM ns key) generalizing acc1 with
  | nil => rfl
  | cons pk pks ih =>
    simp only [List.foldl_cons, List.flatMap_cons, applyOps_append]
    rw [← ih]
    have hstep :
        applyOps acc1
            (match getNestedValue nsMap pk with
              | some v => [(ns ++ "." ++ pk, v)]
              | none => []) =
          (match getNestedValue nsMap pk with
            | some v => recordSet acc1 (ns ++ "." ++ pk) v
            | none => acc1) := by
      cases getNestedValue nsMap pk with
      | some v => rfl
      | none => rfl
    rw [hstep]

theorem pickMessages_eq_applyOps (aM : TranslationFile) (reqs : List TranslationRequirement)
    (locale : String) :
    (pickMessages aM reqs locale).translations =
      reqs.foldl (fun acc req => applyOps acc (reqOps aM req)) [] := by
  unfold pickMessages
  have hfun :
      (fun (acc : List (String × String)) (req : TranslationRequirement) =>
          match alookup aM req.ns with
          | none => acc
          | some nsMap => req.keys.foldl (fun a k => pickKeyInto aM nsMap req.ns k a) acc) =
        fun acc req => applyOps acc (reqOps aM req) := by
    funext acc req
    unfold reqOps
    cases halookup : alookup aM req.ns with
    | none => rfl
    | some nsMap =>
      show req.keys.foldl (fun a k => pickKeyInto aM nsMap req.ns k a) acc
          = applyOps acc (req.keys.flatMap (keyOps aM nsMap req.ns))
      clear halookup
      generalize req.keys = ks
      induction ks generalizing acc with
      | nil => rfl
      | cons k ks ih =>
        simp only [List.foldl_cons, List.flatMap_cons, applyOps_append]
        rw [pickKeyInto_eq_applyOps]
        exact ih (applyOps acc (keyOps aM nsMap req.ns k))
  rw [hfun]

theorem extractPluralKeys_shape {aM : TranslationFile} {ns key pk : String}
    (h : pk ∈ extractPluralKeys aM ns key) :
    ∃ suffix ∈ INTL_PLURAL_CATEGORIES, pk = key ++ suffix := by
  unfold extractPluralKeys at h
  cases halookup : alookup aM ns with
  | none => rw [halookup] at h; cases h
  | some nsData =>
    rw [halookup] at h
    have h2 := List.mem_of_mem_filter h
    obtain ⟨suffix, hs, rfl⟩ := List.mem_map.mp h2
    exact ⟨suffix, hs, rfl⟩

theorem reqOps_shape {aM : TranslationFile} {req : TranslationRequirement}
    {kv : String × String} (h : kv ∈ reqOps aM req) :
    ∃ nsMap, alookup aM req.ns = some nsMap
      ∧ ∃ e, kv.1 = req.ns ++ "." ++ e
        ∧ getNestedValue nsMap e = some kv.2
        ∧ (e ∈ req.keys ∨ ∃ suffix ∈ INTL_PLURAL_CATEGORIES, ∃ base ∈ req.keys, e = base ++ suffix) := by
  unfold reqOps at h
  cases halookup : alookup aM req.ns with
  | none => rw [halookup] at h; cases h
  | some nsMap =>
    rw [halookup] at h
    refine ⟨nsMap, rfl, ?_⟩
    obtain ⟨key, hkey, hkv⟩ := List.mem_flatMap.mp h
    unfold keyOps at hkv
    rcases List.mem_append.mp hkv with hd | hp
    · cases hnv : getNestedValue nsMap key with
      | none => rw [hnv] at hd; cases hd
      | some v =>
        rw [hnv] at hd
        simp only [List.mem_singleton] at hd
        subst hd
        exact ⟨key, rfl, hnv, Or.inl hkey⟩
    · obtain ⟨pk, hpk, hkv2⟩ := List.mem_flatMap.mp hp
      cases hnv : getNestedValue nsMap pk with
      | none => rw [hnv] at hkv2; cases hkv2
      | some v =>
        rw [hnv] at hkv2
        simp only [List.mem_singleton] at hkv2
        subst hkv2
        obtain ⟨suffix, hs, rfl⟩ := extractPluralKeys_shape hpk
        exact ⟨key ++ suffix, rfl, hnv, Or.inr ⟨suffix, hs, key, hkey, rfl⟩⟩

/-! ## Flat catalogs -/

theorem string_mk_data (s : String) : String.mk s.data = s := by
  cases s
  rfl

theorem splitDotAux_ne_nil (l : List Char) (acc : List Char) : splitDotAux acc l ≠ [] := by
  induction l generalizing acc with
  | nil => simp [splitDotAux]
  | cons c cs ih =>
    unfold splitDotAux
    by_cases hc : c = '.'
    · simp [hc]
    · simpa [hc] using ih (c :: acc)

theorem splitDotAux_singleton {l acc : List Char} {k : String}
    (h : splitDotAux acc l = [k]) : k = String.mk (acc.reverse ++ l) := by
  induction l generalizing acc with
  | nil =>
    simp only [splitDotAux, List.cons.injEq, and_true] at h
    rw [← h, List.append_nil]
  | cons c cs ih =>
    unfold splitDotAux at h
    by_cases hc : c = '.'
    · rw [if_pos hc] at h
      have h2 := List.cons.inj h
      exact absurd h2.2 (splitDotAux_ne_nil cs [])
    · rw [if_neg hc] at h
      have h2 := ih h
      rw [h2, List.reverse_cons, List.append_assoc]
      rfl

theorem getNestedValue_flat {m : NamespaceTranslations} {p v : String}
    (hflat : flatNs m) (h : getNestedValue m p = some v) :
    alookup m p = some (.str v) := by
  unfold getNestedValue at h
  cases hsp : splitDot p with
  | nil => exact absurd hsp (splitDotAux_ne_nil p.data [])
  | cons k ks =>
    rw [hsp] at h
    simp only [getNestedValueAux] at h
    cases hl : alookup m k with
    | none => rw [hl] at h; cases h
    | some jv =>
      rw [hl] at h
      have hstr := hflat (k, jv) (alookup_mem hl)
      cases jv with
      | obj fields => exact Bool.noConfusion (show false = true from hstr)
      | str s =>
        cases ks with
        | cons k2 ks2 => exact Option.noConfusion h
        | nil =>
          have h2 : some s = some v := h
          injection h2 with h3
          subst h3
          have hk : k = String.mk p.data := by
            simpa using splitDotAux_singleton hsp
          rw [string_mk_data] at hk
          rw [← hk]
          exact hl

theorem applyOps_mem_preserve {Q : String × String → Prop} {ops m : List (String × String)}
    (hops : ∀ kv ∈ ops, Q kv) (hm : ∀ kv ∈ m, Q kv) :
    ∀ kv ∈ applyOps m ops, Q kv := by
  induction ops generalizing m with
  | nil => exact hm
  | cons o os ih =>
    refine ih (fun kv hkv => hops kv (List.Mem.tail _ hkv)) ?_
    intro kv hkv
    rcases mem_recordSet hkv with h1 | h1
    · exact hm kv h1
    · subst h1
      exact hops (o.1, o.2) (by simpa using List.Mem.head _)

/-- C1: every entry of the resolved set produced by `pickMessages` from a
flat catalog has a key `namespace ++ "." ++ entryKey` where the entry key
is a required key or a required key with a plural-category suffix, and
its value is exactly the string stored under that entry key in the
catalog's namespace map: no value is synthesized. -/
theorem pickMessages_only_catalog_entries (aM : TranslationFile)
    (reqs : List TranslationRequirement) (locale : String) (hflat : flatCatalog aM) :
    ∀ kv ∈ (pickMessages aM reqs locale).translations,
      ∃ req ∈ reqs, ∃ entryKey nsMap,
        kv.1 = req.ns ++ "." ++ entryKey
        ∧ alookup aM req.ns = some nsMap
        ∧ alookup nsMap entryKey = some (.str kv.2)
        ∧ (entryKey ∈ req.keys
            ∨ ∃ suffix ∈ INTL_PLURAL_CATEGORIES, ∃ base ∈ req.keys, entryKey = base ++ suffix) := by
  rw [pickMessages_eq_applyOps]
  refine foldl_preserve_mem ?_ [] (fun kv h => absurd h (List.not_mem_nil kv))
  intro req hreq acc hacc
  refine applyOps_mem_preserve ?_ hacc
  intro kv hkv
  obtain ⟨nsMap, hns, e, hk1, hnv, hor⟩ := reqOps_shape hkv
  have hflatns : flatNs nsMap := hflat (req.ns, nsMap) (alookup_mem hns)
  exact ⟨req, hreq, e, nsMap, hk1, hns, getNestedValue_flat hflatns hnv, hor⟩

/-- Witness for C1 at the spec's plural scenario catalog. -/
theorem pickMessages_only_catalog_entries_witness :
    flatCatalog exCatalog
      ∧ ∀ kv ∈ (pickMessages exCatalog [exReq] "en").translations,
          ∃ req ∈ [exReq], ∃ entryKey nsMap,
            kv.1 = req.ns ++ "." ++ entryKey
            ∧ alookup exCatalog req.ns = some nsMap
            ∧ alookup nsMap entryKey = some (.str kv.2)
            ∧ (entryKey ∈ req.keys
                ∨ ∃ suffix ∈ INTL_PLURAL_CATEGORIES, ∃ base ∈ req.keys, entryKey = base ++ suffix) :=
  ⟨by decide, pickMessages_only_catalog_entries exCatalog [exReq] "en" (by decide)⟩

/-! ## Duplicate requirements (C7) -/

theorem applyOps_cons (m : List (String × String)) (o : String × String)
    (ops : List (String × String)) :
    applyOps m (o :: ops) = applyOps (recordSet m o.1 o.2) ops :=
  rfl

theorem opsConsistent_tail {o : String × String} {ops : List (String × String)}
    (h : OpsConsistent (o :: ops)) : OpsConsistent ops :=
  fun p hp q hq => h p (List.Mem.tail _ hp) q (List.Mem.tail _ hq)

theorem lookup_applyOps_not_mem {k : String} {ops m : List (String × String)}
    (h : k ∉ ops.map Prod.fst) : alookup (applyOps m ops) k = alookup m k := by
  induction ops generalizing m with
  | nil => rfl
  | cons o os ih =>
    simp only [List.map_cons, List.mem_cons] at h
    push_neg at h
    rw [applyOps_cons, ih h.2, alookup_recordSet_ne _ _ _ _ h.1]

theorem lookup_applyOps_mem {ops : List (String × String)} (hcons : OpsConsistent ops)
    {k v : String} (hmem : (k, v) ∈ ops) :
    ∀ m, alookup (applyOps m ops) k = some v := by
  induction ops with
  | nil => cases hmem
  | cons o os ih =>
    intro m
    rw [applyOps_cons]
    by_cases hk : k ∈ os.map Prod.fst
    · obtain ⟨p, hp, hp1⟩ := List.mem_map.mp hk
      have hv : p.2 = v := hcons p (List.Mem.tail _ hp) (k, v) hmem hp1
      have hpkv : p = (k, v) := Prod.ext hp1 hv
      exact ih (opsConsistent_tail hcons) (hpkv ▸ hp) (recordSet m o.1 o.2)
    · have hkv : (k, v) = o := by
        cases hmem with
        | head => rfl
        | tail _ hmem2 => exact absurd (List.mem_map_of_mem Prod.fst hmem2) hk
      rw [lookup_applyOps_not_mem hk, ← hkv]
      exact alookup_recordSet_self m k v

theorem applyOps_keys_nodup {m ops : List (String × String)}
    (h : (m.map Prod.fst).Nodup) : ((applyOps m ops).map Prod.fst).Nodup := by
  induction ops generalizing m with
  | nil => exact h
  | cons o os ih =>
    rw [applyOps_cons]
    exact ih (recordSet_keys_nodup h)

theorem applyOps_fixed {m ops : List (String × String)} (hnd : (m.map Prod.fst).Nodup)
    (h : ∀ p ∈ ops, alookup m p.1 = some p.2) : applyOps m ops = m := by
  induction ops with
  | nil => rfl
  | cons o os ih =>
    rw [applyOps_cons, recordSet_eq_self hnd (h o (List.Mem.head _))]
    exact ih (fun p hp => h p (List.Mem.tail _ hp))

theorem reqOps_consistent (aM : TranslationFile) (req : TranslationRequirement) :
    OpsConsistent (reqOps aM req) := by
  intro p hp q hq heq
  obtain ⟨nsMap, hns, e1, hp1, hpv, _⟩ := reqOps_shape hp
  obtain ⟨nsMap2, hns2, e2, hq1, hqv, _⟩ := reqOps_shape hq
  rw [hns] at hns2
  injection hns2 with hns3
  subst hns3
  have h12 : req.ns ++ "." ++ e1 = req.ns ++ "." ++ e2 := by
    rw [← hp1, ← hq1]
    exact heq
  have he : e1 = e2 := string_append_left_cancel h12
  have hv : some p.2 = some q.2 := by rw [← hpv, ← hqv, he]
  injection hv

theorem applyOps_reqOps_idem (aM : TranslationFile) (req : TranslationRequirement)
    {M : List (String × String)} (hnd : (M.map Prod.fst).Nodup) :
    applyOps (applyOps M (reqOps aM req)) (reqOps aM req) = applyOps M (reqOps aM req) := by
  refine applyOps_fixed (applyOps_keys_nodup hnd) ?_
  intro p hp
  exact lookup_applyOps_mem (reqOps_consistent aM req) hp M

/-- C7: `mergeRequirements` flattens nested requirement groups into one
ordered list, preserving declaration order and every duplicate (neither
requirements nor keys are deduplicated: the multiplicity of every
requirement is the sum of its multiplicities in the arguments), and the
resolver processes duplicated requirements without error: re-resolving
the same requirement twice yields the same resolved set. -/
theorem mergeRequirements_flatten_no_dedup :
    (∀ (r : TranslationRequirement)
        (rest : List (TranslationRequirement ⊕ List TranslationRequirement)),
        mergeRequirements (.inl r :: rest) = r :: mergeRequirements rest)
      ∧ (∀ (rs : List TranslationRequirement)
          (rest : List (TranslationRequirement ⊕ List TranslationRequirement)),
          mergeRequirements (.inr rs :: rest) = rs ++ mergeRequirements rest)
      ∧ (∀ (args : List (TranslationRequirement ⊕ List TranslationRequirement))
          (r : TranslationRequirement),
          (mergeRequirements args).count r
            = (args.map (fun a =>
                match a with
                | .inl r' => if r = r' then 1 else 0
                | .inr rs => rs.count r)).sum)
      ∧ (∀ (aM : TranslationFile) (reqs : List TranslationRequirement)
          (req : TranslationRequirement) (locale : String),
          pickMessages aM (reqs ++ [req, req]) locale
            = pickMessages aM (reqs ++ [req]) locale) := by
  refine ⟨fun r rest => rfl, fun rs rest => rfl, ?_, ?_⟩
  · intro args r
    induction args with
    | nil => rfl
    | cons a args ih =>
      cases a with
      | inl r' =>
        rw [show mergeRequirements (.inl r' :: args) = r' :: mergeRequirements args from rfl,
          List.count_cons, ih, List.map_cons, List.sum_cons]
        by_cases h : r = r'
        · subst h
          simp [Nat.add_comm]
        · have h2 : ¬ r' = r := fun hh => h hh.symm
          simp [h, h2]
      | inr rs =>
        rw [show mergeRequirements (.inr rs :: args) = rs ++ mergeRequirements args from rfl,
          List.count_append, ih, List.map_cons, List.sum_cons]
  · intro aM reqs req locale
    have hnd : ((reqs.foldl (fun acc r => applyOps acc (reqOps aM r)) []).map Prod.fst).Nodup := by
      exact @foldl_preserve TranslationRequirement (List (String × String))
        (fun m => (m.map Prod.fst).Nodup) (fun acc r => applyOps acc (reqOps aM r)) reqs
        (fun r _ acc hacc => applyOps_keys_nodup hacc) [] (by simp)
    have htrans : (pickMessages aM (reqs ++ [req, req]) locale).translations
        = (pickMessages aM (reqs ++ [req]) locale).translations := by
      rw [pickMessages_eq_applyOps, pickMessages_eq_applyOps, List.foldl_append,
        List.foldl_append]
      simp only [List.foldl_cons, List.foldl_nil]
      exact applyOps_reqOps_idem aM req hnd
    exact congrArg (Messages.mk locale) htrans

/-! ## The plural-completeness validator (C8) -/

theorem mem_setAdd {acc : List String} {x y : String} :
    x ∈ setAdd acc y ↔ x ∈ acc ∨ x = y := by
  unfold setAdd
  by_cases h : y ∈ acc
  · rw [if_pos h]
    constructor
    · exact Or.inl
    · rintro (hx | hx)
      · exact hx
      · exact hx ▸ h
  · rw [if_neg h]
    simp

theorem setAdd_nodup {acc : List String} {y : String} (h : acc.Nodup) :
    (setAdd acc y).Nodup := by
  unfold setAdd
  by_cases hy : y ∈ acc
  · rwa [if_pos hy]
  · rw [if_neg hy]
    simpa [List.nodup_append] using ⟨h, fun hmem => hy hmem⟩

theorem mem_collectAllKeys_aux {m : NamespaceTranslations} :
    ∀ (acc : List String) (x : String),
      x ∈ m.foldl
          (fun ks kv =>
            match kv.2 with
            | .str _ => setAdd ks kv.1
            | .obj _ => ks)
          acc
        ↔ x ∈ acc ∨ ∃ s, (x, JValue.str s) ∈ m := by
  induction m with
  | nil => simp
  | cons kv rest ih =>
    intro acc x
    obtain ⟨k, v⟩ := kv
    cases v with
    | str s =>
      simp only [List.foldl_cons]
      rw [ih (setAdd acc k) x]
      constructor
      · rintro (hacc | ⟨s2, hs2⟩)
        · rcases mem_setAdd.mp hacc with h | h
          · exact Or.inl h
          · exact Or.inr ⟨s, by rw [h]; exact List.Mem.head _⟩
        · exact Or.inr ⟨s2, List.Mem.tail _ hs2⟩
      · rintro (hacc | ⟨s2, hs2⟩)
        · exact Or.inl (mem_setAdd.mpr (Or.inl hacc))
        · rcases List.mem_cons.mp hs2 with heq | hmem
          · exact Or.inl (mem_setAdd.mpr (Or.inr (congrArg Prod.fst heq)))
          · exact Or.inr ⟨s2, hmem⟩
    | obj fields =>
      simp only [List.foldl_cons]
      rw [ih acc x]
      constructor
      · rintro (hacc | ⟨s2, hs2⟩)
        · exact Or.inl hacc
        · exact Or.inr ⟨s2, List.Mem.tail _ hs2⟩
      · rintro (hacc | ⟨s2, hs2⟩)
        · exact Or.inl hacc
        · rcases List.mem_cons.mp hs2 with heq | hmem
          · exact JValue.noConfusion (congrArg Prod.snd heq)
          · exact Or.inr ⟨s2, hmem⟩

theorem mem_collectAllKeys {m : NamespaceTranslations} {x : String} :
    x ∈ collectAllKeys m ↔ ∃ s, (x, JValue.str s) ∈ m := by
  unfold collectAllKeys
  rw [mem_collectAllKeys_aux [] x]
  simp

theorem collectAllKeys_nodup (m : NamespaceTranslations) : (collectAllKeys m).Nodup := by
  unfold collectAllKeys
  exact @foldl_preserve (String × JValue) (List String) (fun ks => ks.Nodup)
    (fun ks kv =>
      match kv.2 with
      | .str _ => setAdd ks kv.1
      | .obj _ => ks)
    m
    (fun kv _ acc hacc => by
      obtain ⟨k, v⟩ := kv
      cases v with
      | str s => exact setAdd_nodup hacc
      | obj fields => exact hacc)
    [] List.nodup_nil

/-! ## The plural-suffix regular expression -/

theorem isPrefixOf_self_append (l t : List Char) : l.isPrefixOf (l ++ t) = true := by
  induction l with
  | nil => simp [List.isPrefixOf]
  | cons a as ih => simp [List.isPrefixOf, ih]

theorem regexPluralMatch_one (base : String) (hbase : base ≠ "")
    (hchars : ∀ c ∈ base.data, isRegexDotChar c = true) :
    regexPluralMatch (base ++ "_one") = some (base, "one") := by
  have hdata : (base ++ "_one").data = base.data ++ ['_', 'o', 'n', 'e'] := rfl
  have hnonnil : base.data ≠ [] := by
    intro h
    exact hbase (string_data_inj (by simpa using h))
  have hlen0 : 0 < base.data.length := List.length_pos.mpr hnonnil
  have hC1 : ¬("_other".data.isSuffixOf (base ++ "_one").data
      ∧ 6 < (base ++ "_one").data.length
      ∧ ((base ++ "_one").data.take ((base ++ "_one").data.length - 6)).all isRegexDotChar) := by
    rintro ⟨h1, -, -⟩
    have h2 : ("_other".data.reverse).isPrefixOf ((base ++ "_one").data.reverse) = true := h1
    rw [hdata, List.reverse_append] at h2
    have h3 : ("_other".data.reverse) = ['r', 'e', 'h', 't', 'o', '_'] := by decide
    have h4 : (['_', 'o', 'n', 'e'] : List Char).reverse = ['e', 'n', 'o', '_'] := by decide
    rw [h3, h4] at h2
    simp [List.isPrefixOf] at h2
  rw [regexPluralMatch, if_neg hC1]
  have hsuf : "_one".data.isSuffixOf (base ++ "_one").data = true := by
    show ("_one".data.reverse).isPrefixOf ((base ++ "_one").data.reverse) = true
    rw [hdata, List.reverse_append]
    exact isPrefixOf_self_append _ _
  have hlen2 : 4 < (base ++ "_one").data.length := by
    rw [hdata, List.length_append]
    simp only [List.length_cons, List.length_nil]
    omega
  have htake : (base ++ "_one").data.take ((base ++ "_one").data.length - 4) = base.data := by
    rw [hdata, List.length_append]
    have h5 : base.data.length + (['_', 'o', 'n', 'e'] : List Char).length - 4
        = base.data.length := by
      simp
    rw [h5]
    exact List.take_left base.data _
  have hall : ((base ++ "_one").data.take ((base ++ "_one").data.length - 4)).all
      isRegexDotChar = true := by
    rw [htake]
    exact List.all_eq_true.mpr hchars
  rw [if_pos ⟨hsuf, hlen2, hall⟩, htake, string_mk_data]

theorem regexPluralMatch_other_shape {k b : String}
    (h : regexPluralMatch k = some (b, "other")) : k = b ++ "_other" := by
  unfold regexPluralMatch at h
  by_cases hC1 : ("_other".data.isSuffixOf k.data ∧ 6 < k.data.length
      ∧ (k.data.take (k.data.length - 6)).all isRegexDotChar)
  · rw [if_pos hC1] at h
    injection h with h2
    have hb : String.mk (k.data.take (k.data.length - 6)) = b := congrArg Prod.fst h2
    obtain ⟨t, ht⟩ := List.isSuffixOf_iff_suffix.mp hC1.1
    have hlen6 : ("_other".data : List Char).length = 6 := by decide
    have htlen : t.length = k.data.length - 6 := by
      have := congrArg List.length ht
      rw [List.length_append, hlen6] at this
      omega
    have htake : k.data.take (k.data.length - 6) = t := by
      rw [← htlen, ← ht]
      exact List.take_left t _
    have hbt : b.data = t := by
      rw [← hb, htake]
    apply string_data_inj
    rw [string_data_append, hbt, ← ht]
  · rw [if_neg hC1] at h
    by_cases hC2 : ("_one".data.isSuffixOf k.data ∧ 4 < k.data.length
        ∧ (k.data.take (k.data.length - 4)).all isRegexDotChar)
    · rw [if_pos hC2] at h
      injection h with h2
      have hcat : "one" = "other" := congrArg Prod.snd h2
      exact absurd hcat (by decide)
    · rw [if_neg hC2] at h
      cases h

/-! ## The suffix classification map -/

theorem alookup_mapAddSuffix_self (m : List (String × List String)) (b s : String) :
    alookup (mapAddSuffix m b s) b
      = some
          (match alookup m b with
          | some ss => if s ∈ ss then ss else ss ++ [s]
          | none => [s]) := by
  induction m with
  | nil => simp [mapAddSuffix, alookup]
  | cons p rest ih =>
    obtain ⟨b', ss'⟩ := p
    by_cases hb : b' = b
    · subst hb
      simp [mapAddSuffix, alookup]
    · simp only [mapAddSuffix, if_neg hb, alookup, if_neg hb]
      exact ih

theorem alookup_mapAddSuffix_ne (m : List (String × List String)) (b s b' : String)
    (h : b' ≠ b) : alookup (mapAddSuffix m b s) b' = alookup m b' := by
  induction m with
  | nil => simp [mapAddSuffix, alookup, if_neg (fun hh : b = b' => h hh.symm)]
  | cons p rest ih =>
    obtain ⟨c, cs⟩ := p
    by_cases hc : c = b
    · subst hc
      simp only [mapAddSuffix, if_pos rfl]
      simp [alookup, if_neg (fun hh : c = b' => h hh.symm)]
    · simp only [mapAddSuffix, if_neg hc]
      by_cases hcb : c = b'
      · simp [alookup, if_pos hcb]
      · simp only [alookup, if_neg hcb]
        exact ih

theorem classify_fold_spec (keys : List String) :
    ∀ (m0 : List (String × List String)) (b s' : String),
      (∃ ss, alookup
            (keys.foldl
              (fun m k =>
                match regexPluralMatch k with
                | some (b2, s2) => mapAddSuffix m b2 s2
                | none => m)
              m0)
            b = some ss ∧ s' ∈ ss)
        ↔ ((∃ ss, alookup m0 b = some ss ∧ s' ∈ ss)
            ∨ ∃ k ∈ keys, regexPluralMatch k = some (b, s')) := by
  induction keys with
  | nil => simp
  | cons k ks ih =>
    intro m0 b s'
    simp only [List.foldl_cons]
    cases hm : regexPluralMatch k with
    | none =>
      rw [ih m0 b s']
      simp only [List.mem_cons]
      constructor
      · rintro (h | ⟨k2, hk2, hm2⟩)
        · exact Or.inl h
        · exact Or.inr ⟨k2, Or.inr hk2, hm2⟩
      · rintro (h | ⟨k2, hk2, hm2⟩)
        · exact Or.inl h
        · rcases hk2 with rfl | hk2
          · rw [hm] at hm2; cases hm2
          · exact Or.inr ⟨k2, hk2, hm2⟩
    | some p =>
      obtain ⟨b0, s0⟩ := p
      rw [ih (mapAddSuffix m0 b0 s0) b s']
      have hstep : (∃ ss, alookup (mapAddSuffix m0 b0 s0) b = some ss ∧ s' ∈ ss)
          ↔ ((∃ ss, alookup m0 b = some ss ∧ s' ∈ ss) ∨ (b = b0 ∧ s' = s0)) := by
        by_cases hb : b = b0
        · subst hb
          rw [alookup_mapAddSuffix_self]
          cases hl : alookup m0 b with
          | none =>
            show (∃ ss, some [s0] = some ss ∧ s' ∈ ss) ↔ _
            constructor
            · rintro ⟨ss, hss, hmem⟩
              injection hss with hss2
              subst hss2
              simp only [List.mem_singleton] at hmem
              exact Or.inr ⟨rfl, hmem⟩
            · rintro (⟨ss, hss, hmem⟩ | ⟨-, hs⟩)
              · cases hss
              · exact ⟨[s0], rfl, by simp [hs]⟩
          | some ss0 =>
            show (∃ ss, some (if s0 ∈ ss0 then ss0 else ss0 ++ [s0]) = some ss ∧ s' ∈ ss) ↔ _
            constructor
            · rintro ⟨ss, hss, hmem⟩
              injection hss with hss2
              subst hss2
              by_cases hs0 : s0 ∈ ss0
              · rw [if_pos hs0] at hmem
                exact Or.inl ⟨ss0, rfl, hmem⟩
              · rw [if_neg hs0] at hmem
                rcases List.mem_append.mp hmem with hmem2 | hmem2
                · exact Or.inl ⟨ss0, rfl, hmem2⟩
                · simp only [List.mem_singleton] at hmem2
                  exact Or.inr ⟨rfl, hmem2⟩
            · rintro (⟨ss, hss, hmem⟩ | ⟨-, hs⟩)
              · injection hss with hss2
                subst hss2
                refine ⟨_, rfl, ?_⟩
                by_cases hs0 : s0 ∈ ss0
                · rwa [if_pos hs0]
                · rw [if_neg hs0]
                  exact List.mem_append.mpr (Or.inl hmem)
              · subst hs
                refine ⟨_, rfl, ?_⟩
                by_cases hs0 : s' ∈ ss0
                · rwa [if_pos hs0]
                · rw [if_neg hs0]
                  exact List.mem_append.mpr (Or.inr (List.Mem.head _))
        · rw [alookup_mapAddSuffix_ne _ _ _ _ hb]
          constructor
          · exact fun h => Or.inl h
          · rintro (h | ⟨hb2, -⟩)
            · exact h
            · exact absurd hb2 hb
      rw [hstep]
      simp only [List.mem_cons]
      constructor
      · rintro ((h | ⟨hb, hs⟩) | ⟨k2, hk2, hm2⟩)
        · exact Or.inl h
        · exact Or.inr ⟨k, Or.inl rfl, by rw [hm, hb, hs]⟩
        · exact Or.inr ⟨k2, Or.inr hk2, hm2⟩
      · rintro (h | ⟨k2, hk2, hm2⟩)
        · exact Or.inl (Or.inl h)
        · rcases hk2 with rfl | hk2
          · rw [hm] at hm2
            injection hm2 with hm3
            have hb : b0 = b := congrArg Prod.fst hm3
            have hs : s0 = s' := congrArg Prod.snd hm3
            exact Or.inl (Or.inr ⟨hb.symm, hs.symm⟩)
          · exact Or.inr ⟨k2, hk2, hm2⟩

theorem classifyPlural_spec (keys : List String) (b s' : String) :
    (∃ ss, alookup (classifyPlural keys) b = some ss ∧ s' ∈ ss)
      ↔ ∃ k ∈ keys, regexPluralMatch k = some (b, s') := by
  unfold classifyPlural
  rw [classify_fold_spec keys [] b s']
  simp [alookup]

/-- C8 counterexample: the namespace map holding only `item_few` has a
plural-category-suffixed sibling (`few` is one of the
zero/one/two/few/many/other categories) for the base `item` and no
`item_other`, yet the validator reports a fully valid result with no
errors at all. -/
theorem validatePluralKeys_category_cex :
    ("item" ++ "_few") = "item_few"
      ∧ "_few" ∈ INTL_PLURAL_CATEGORIES
      ∧ ("item" ++ "_few") ∈ collectAllKeys [("item_few", JValue.str "x")]
      ∧ ("item" ++ "_other") ∉ collectAllKeys [("item_few", JValue.str "x")]
      ∧ validateTranslations cexFewCatalog = ⟨true, [], []⟩ :=
  ⟨by decide, by decide, by decide, by decide, by decide⟩

/-- C8 (amended): the validator detects plural families only through
`_one` and `_other` suffixes.  For every base name that has an `_one`
sibling (as a string entry) but no `_other` sibling, the result contains
a `missing-plural-other` error for that base name and its valid flag is
false. -/
theorem validatePluralKeys_missing_other (tf : TranslationFile) (ns : String)
    (m : NamespaceTranslations) (base : String)
    (hmem : (ns, m) ∈ tf)
    (hbase : base ≠ "")
    (hchars : ∀ c ∈ base.data, isRegexDotChar c = true)
    (hone : (base ++ "_one") ∈ collectAllKeys m)
    (hother : (base ++ "_other") ∉ collectAllKeys m) :
    mkMissingPluralOtherError ns base ∈ (validateTranslations tf).errors
      ∧ (validateTranslations tf).valid = false := by
  have hmatch : regexPluralMatch (base ++ "_one") = some (base, "one") :=
    regexPluralMatch_one base hbase hchars
  obtain ⟨ss, hss, -⟩ :=
    (classifyPlural_spec (collectAllKeys m) base "one").mpr ⟨base ++ "_one", hone, hmatch⟩
  have hnotother : "other" ∉ ss := by
    intro hin
    obtain ⟨k, hk, hkm⟩ :=
      (classifyPlural_spec (collectAllKeys m) base "other").mp ⟨ss, hss, hin⟩
    rw [regexPluralMatch_other_shape hkm] at hk
    exact hother hk
  have herr : mkMissingPluralOtherError ns base ∈ validatePluralKeys ns m := by
    unfold validatePluralKeys
    refine List.mem_flatMap.mpr ⟨(base, ss), alookup_mem hss, ?_⟩
    refine List.mem_append.mpr (Or.inr ?_)
    rw [if_neg hnotother]
    exact List.Mem.head _
  have herrs : mkMissingPluralOtherError ns base ∈ (validateTranslations tf).errors :=
    List.mem_flatMap.mpr
      ⟨(ns, m), hmem,
        List.mem_append.mpr
          (Or.inl (List.mem_append.mpr
            (Or.inl (List.mem_append.mpr (Or.inl herr)))))⟩
  refine ⟨herrs, ?_⟩
  have hval : (validateTranslations tf).valid = (validateTranslations tf).errors.isEmpty := rfl
  rw [hval]
  cases herrlist : (validateTranslations tf).errors with
  | nil => exact absurd (herrlist ▸ herrs) (List.not_mem_nil _)
  | cons e es => rfl

/-- Witness for C8's amended theorem: a namespace holding only
`itemCount_one`. -/
theorem validatePluralKeys_missing_other_witness :
    ("common", [("itemCount_one", JValue.str "1 item")]) ∈ exMissingOtherCatalog
      ∧ ("itemCount" : String) ≠ ""
      ∧ (∀ c ∈ ("itemCount" : String).data, isRegexDotChar c = true)
      ∧ ("itemCount" ++ "_one") ∈ collectAllKeys [("itemCount_one", JValue.str "1 item")]
      ∧ ("itemCount" ++ "_other") ∉ collectAllKeys [("itemCount_one", JValue.str "1 item")]
      ∧ mkMissingPluralOtherError "common" "itemCount"
          ∈ (validateTranslations exMissingOtherCatalog).errors
      ∧ (validateTranslations exMissingOtherCatalog).valid = false :=
  ⟨List.Mem.head _, by decide, by decide, by decide, by decide,
    (validatePluralKeys_missing_other exMissingOtherCatalog "common"
      [("itemCount_one", JValue.str "1 item")] "itemCount"
      (List.Mem.head _) (by decide) (by decide) (by decide) (by decide)).1,
    (validatePluralKeys_missing_other exMissingOtherCatalog "common"
      [("itemCount_one", JValue.str "1 item")] "itemCount"
      (List.Mem.head _) (by decide) (by decide) (by decide) (by decide)).2⟩

/-! ## Placeholder substitution (C6) -/

theorem replaceAllFuel_nil (pat rep : List Char) (n : Nat) :
    replaceAllFuel pat rep n [] = [] := by
  cases n <;> rfl

theorem replaceAllFuel_succ (pat rep : List Char) (n : Nat) (c : Char) (cs : List Char) :
    replaceAllFuel pat rep (n + 1) (c :: cs) =
      if pat.isPrefixOf (c :: cs) ∧ pat ≠ [] then
        rep ++ replaceAllFuel pat rep n (cs.drop (pat.length - 1))
      else
        c :: replaceAllFuel pat rep n cs :=
  rfl

theorem replaceAllFuel_irrel (pat rep : List Char) :
    ∀ (n : Nat) (l : List Char), l.length ≤ n →
      replaceAllFuel pat rep n l = replaceAllAux pat rep l := by
  intro n
  induction n using Nat.strong_induction_on with
  | _ n ih =>
    intro l hl
    cases l with
    | nil => rw [replaceAllFuel_nil]; rfl
    | cons c cs =>
      cases n with
      | zero => simp at hl
      | succ n' =>
        have hcs : cs.length ≤ n' := by
          simpa using hl
        show _ = replaceAllFuel pat rep (c :: cs).length (c :: cs)
        rw [List.length_cons, replaceAllFuel_succ, replaceAllFuel_succ]
        by_cases hp : pat.isPrefixOf (c :: cs) ∧ pat ≠ []
        · rw [if_pos hp, if_pos hp]
          have hd : (cs.drop (pat.length - 1)).length ≤ cs.length := by
            simp [List.length_drop]
          congr 1
          calc replaceAllFuel pat rep n' (cs.drop (pat.length - 1))
              = replaceAllAux pat rep (cs.drop (pat.length - 1)) :=
                ih n' (Nat.lt_succ_self n') _ (le_trans hd hcs)
            _ = replaceAllFuel pat rep cs.length (cs.drop (pat.length - 1)) :=
                (ih cs.length (Nat.lt_succ_of_le hcs) _ hd).symm
        · rw [if_neg hp, if_neg hp]
          congr 1
          calc replaceAllFuel pat rep n' cs
              = replaceAllAux pat rep cs := ih n' (Nat.lt_succ_self n') cs hcs
            _ = replaceAllFuel pat rep cs.length cs :=
                (ih cs.length (Nat.lt_succ_of_le hcs) cs le_rfl).symm

theorem replaceAllAux_cons_pos {pat : List Char} (rep : List Char) {c : Char} {cs : List Char}
    (hp : pat.isPrefixOf (c :: cs) = true) (hne : pat ≠ []) :
    replaceAllAux pat rep (c :: cs) = rep ++ replaceAllAux pat rep (cs.drop (pat.length - 1)) := by
  show replaceAllFuel pat rep (c :: cs).length (c :: cs) = _
  rw [List.length_cons, replaceAllFuel_succ, if_pos ⟨hp, hne⟩]
  congr 1
  refine replaceAllFuel_irrel pat rep cs.length _ ?_
  simp [List.length_drop]

theorem replaceAllAux_cons_neg {pat : List Char} (rep : List Char) {c : Char} {cs : List Char}
    (h : ¬(pat.isPrefixOf (c :: cs) = true ∧ pat ≠ [])) :
    replaceAllAux pat rep (c :: cs) = c :: replaceAllAux pat rep cs := by
  show replaceAllFuel pat rep (c :: cs).length (c :: cs) = _
  rw [List.length_cons, replaceAllFuel_succ, if_neg h]
  exact congrArg (c :: ·) (replaceAllFuel_irrel pat rep cs.length cs le_rfl)

theorem phData_ne_nil (k : String) : phData k ≠ [] := by
  simp [phData]

theorem isIdentChar_ne_lbrace {c : Char} (h : isIdentChar c = true) : c ≠ '{' := by
  intro hc
  subst hc
  exact absurd h (by decide)

theorem identName_chars {n : String} (h : identName n = true) :
    ∀ c ∈ n.data, isIdentChar c = true := by
  have h2 := (Bool.and_eq_true _ _).mp h
  exact List.all_eq_true.mp h2.2

theorem inertValue_chars {v : PValue} (h : inertValue v = true) :
    ∀ c ∈ (jsString v).data, c ≠ '{' := by
  intro c hc hcl
  have h2 := List.all_eq_true.mp h c hc
  subst hcl
  exact absurd h2 (by decide)

theorem replaceAllAux_peel_char {k : String} (rep : List Char) {c : Char} (hc : c ≠ '{')
    (cs : List Char) :
    replaceAllAux (phData k) rep (c :: cs) = c :: replaceAllAux (phData k) rep cs := by
  apply replaceAllAux_cons_neg
  rintro ⟨hp, -⟩
  have h2 : (('{' : Char) == c) = true := by
    have := hp
    simp only [phData, List.isPrefixOf, Bool.and_eq_true] at this
    exact this.1
  exact hc (eq_of_beq h2).symm

theorem replaceAllAux_peel_list {k : String} (rep : List Char) {l : List Char}
    (hl : ∀ c ∈ l, c ≠ '{') (rest : List Char) :
    replaceAllAux (phData k) rep (l ++ rest) = l ++ replaceAllAux (phData k) rep rest := by
  induction l with
  | nil => rfl
  | cons c cs ih =>
    rw [List.cons_append, replaceAllAux_peel_char rep (hl c (List.Mem.head _)) (cs ++ rest),
      ih (fun c2 hc2 => hl c2 (List.Mem.tail _ hc2))]
    rfl

theorem replaceAllAux_match (k : String) (rep rest : List Char) :
    replaceAllAux (phData k) rep (phData k ++ rest) = rep ++ replaceAllAux (phData k) rep rest := by
  have hshape : phData k ++ rest = '{' :: (('{' :: (k.data ++ ['}', '}'])) ++ rest) := rfl
  rw [hshape]
  rw [replaceAllAux_cons_pos rep (hshape ▸ isPrefixOf_self_append (phData k) rest)
    (phData_ne_nil k)]
  congr 1
  have hlen : (phData k).length - 1 = ('{' :: (k.data ++ ['}', '}'])).length := by
    simp [phData]
  rw [hlen]
  exact congrArg _ (List.drop_left _ _)

theorem not_prefix_ident (rest : List Char) :
    ∀ (kl nl : List Char), (∀ c ∈ kl, isIdentChar c = true) →
      (∀ c ∈ nl, isIdentChar c = true) → kl ≠ nl →
      ((kl ++ ['}', '}']).isPrefixOf (nl ++ '}' :: '}' :: rest)) = false := by
  intro kl
  induction kl with
  | nil =>
    intro nl _ hn hne
    cases nl with
    | nil => exact absurd rfl hne
    | cons b bs =>
      have hb := hn b (List.Mem.head _)
      have hbne : ('}' : Char) ≠ b := by
        intro hbb
        rw [← hbb] at hb
        exact absurd hb (by decide)
      simp [List.isPrefixOf, hbne]
  | cons a as ih =>
    intro nl hk hn hne
    cases nl with
    | nil =>
      have ha := hk a (List.Mem.head _)
      have hane : a ≠ '}' := by
        intro haa
        rw [haa] at ha
        exact absurd ha (by decide)
      simp [List.isPrefixOf, hane]
    | cons b bs =>
      by_cases hab : a = b
      · subst hab
        have hne2 : as ≠ bs := fun h => hne (by rw [h])
        simp only [List.cons_append, List.isPrefixOf, beq_self_eq_true, Bool.true_and]
        exact ih bs (fun c hc => hk c (List.Mem.tail _ hc))
          (fun c hc => hn c (List.Mem.tail _ hc)) hne2
      · simp [List.isPrefixOf, hab]

theorem replaceAllAux_peel_ph {k n : String} (rep : List Char) (hk : identName k = true)
    (hn : identName n = true) (hne : n ≠ k) (rest : List Char) :
    replaceAllAux (phData k) rep (phData n ++ rest)
      = phData n ++ replaceAllAux (phData k) rep rest := by
  have hdne : k.data ≠ n.data := fun h => hne ((string_data_inj h).symm)
  have hnp := not_prefix_ident rest k.data n.data (identName_chars hk) (identName_chars hn) hdne
  have hshape : phData n ++ rest = '{' :: '{' :: (n.data ++ '}' :: '}' :: rest) := by
    simp [phData]
  rw [hshape]
  have h0 : ¬((phData k).isPrefixOf ('{' :: '{' :: (n.data ++ '}' :: '}' :: rest)) = true
      ∧ phData k ≠ []) := by
    rintro ⟨hp, -⟩
    simp only [phData, List.isPrefixOf, beq_self_eq_true, Bool.true_and] at hp
    have hp2 : ((k.data ++ ['}', '}']).isPrefixOf (n.data ++ '}' :: '}' :: rest)) = true := by
      simpa using hp
    rw [hnp] at hp2
    cases hp2
  rw [replaceAllAux_cons_neg rep h0]
  have h1 : ¬((phData k).isPrefixOf ('{' :: (n.data ++ '}' :: '}' :: rest)) = true
      ∧ phData k ≠ []) := by
    rintro ⟨hp, -⟩
    simp only [phData, List.isPrefixOf, beq_self_eq_true, Bool.true_and] at hp
    cases hd : n.data with
    | nil =>
      rw [hd] at hp
      simp [List.isPrefixOf] at hp
    | cons b bs =>
      rw [hd] at hp
      have hb := identName_chars hn b (by rw [hd]; exact List.Mem.head _)
      have hbne : ('{' : Char) ≠ b := fun hbb => isIdentChar_ne_lbrace hb hbb.symm
      simp [List.isPrefixOf, hbne] at hp
  rw [replaceAllAux_cons_neg rep h1]
  have hipeel : ∀ c ∈ n.data, c ≠ '{' :=
    fun c hc => isIdentChar_ne_lbrace (identName_chars hn c hc)
  rw [show n.data ++ '}' :: '}' :: rest = n.data ++ ('}' :: '}' :: rest) from rfl,
    replaceAllAux_peel_list rep hipeel ('}' :: '}' :: rest),
    replaceAllAux_peel_char rep (by decide) ('}' :: rest),
    replaceAllAux_peel_char rep (by decide) rest]
  simp [phData]

theorem phStr_data (n : String) : ("\x7b\x7b" ++ n ++ "\x7d\x7d").data = phData n := by
  show ("\x7b\x7b".data ++ n.data) ++ "\x7d\x7d".data = phData n
  simp [phData]

theorem replaceAll_substSegs_step (segs : List Segment) (pre : PlaceholderValues)
    (k : String) (v : PValue)
    (hseg : ∀ s ∈ segs, wfSeg s = true)
    (hpre : ∀ kv ∈ pre, inertValue kv.2 = true)
    (hk : identName k = true) :
    replaceAllAux (phData k) (jsString v).data (segs.flatMap (substSegChars pre))
      = segs.flatMap (substSegChars (pre ++ [(k, v)])) := by
  induction segs with
  | nil => rfl
  | cons seg rest ih =>
    have hih := ih (fun s hs => hseg s (List.Mem.tail _ hs))
    simp only [List.flatMap_cons]
    cases seg with
    | lit s =>
      have hwf : s.data.all nonBrace = true := hseg (.lit s) (List.Mem.head _)
      have hnb : ∀ c ∈ s.data, c ≠ '{' := by
        intro c hc hceq
        have h2 := List.all_eq_true.mp hwf c hc
        subst hceq
        exact absurd h2 (by decide)
      show replaceAllAux (phData k) (jsString v).data
          (s.data ++ rest.flatMap (substSegChars pre)) = _
      rw [replaceAllAux_peel_list _ hnb, hih]
      rfl
    | ph n =>
      have hwfn : identName n = true := hseg (.ph n) (List.Mem.head _)
      cases hlook : alookup pre n with
      | some w =>
        have hchunk : substSegChars pre (.ph n) = (jsString w).data := by
          simp only [substSegChars, hlook]
        have hlk2 : alookup (pre ++ [(k, v)]) n = some w := by
          rw [alookup_append, hlook]
        have hchunk2 : substSegChars (pre ++ [(k, v)]) (.ph n) = (jsString w).data := by
          simp only [substSegChars, hlk2]
        rw [hchunk, hchunk2,
          replaceAllAux_peel_list _ (inertValue_chars (hpre (n, w) (alookup_mem hlook))), hih]
      | none =>
        have hchunk : substSegChars pre (.ph n) = phData n := by
          simp only [substSegChars, hlook]
        by_cases hnk : n = k
        · subst hnk
          have hlk2 : alookup (pre ++ [(n, v)]) n = some v := by
            rw [alookup_append, hlook]
            show alookup [(n, v)] n = some v
            simp [alookup]
          have hchunk2 : substSegChars (pre ++ [(n, v)]) (.ph n) = (jsString v).data := by
            simp only [substSegChars, hlk2]
          rw [hchunk, hchunk2, replaceAllAux_match, hih]
        · have hlk2 : alookup (pre ++ [(k, v)]) n = none := by
            rw [alookup_append, hlook]
            show alookup [(k, v)] n = none
            simp only [alookup]
            rw [if_neg (fun h : k = n => hnk h.symm)]
          have hchunk2 : substSegChars (pre ++ [(k, v)]) (.ph n) = phData n := by
            simp only [substSegChars, hlk2]
          rw [hchunk, hchunk2, replaceAllAux_peel_ph _ hk hwfn hnk, hih]

theorem substSegs_nil_values (segs : List Segment) : substSegs [] segs = render segs := by
  unfold substSegs render
  apply congrArg String.mk
  induction segs with
  | nil => rfl
  | cons seg rest ih =>
    simp only [List.flatMap_cons, ih]
    cases seg with
    | lit s => rfl
    | ph n => rfl

theorem replacePlaceholders_fold_aux (segs : List Segment)
    (hseg : ∀ s ∈ segs, wfSeg s = true) :
    ∀ (vs pre : PlaceholderValues),
      (∀ kv ∈ pre, identName kv.1 = true ∧ inertValue kv.2 = true) →
      (∀ kv ∈ vs, identName kv.1 = true ∧ inertValue kv.2 = true) →
      vs.foldl
          (fun result kv => replaceAll result ("\x7b\x7b" ++ kv.1 ++ "\x7d\x7d") (jsString kv.2))
          (substSegs pre segs)
        = substSegs (pre ++ vs) segs := by
  intro vs
  induction vs with
  | nil =>
    intro pre _ _
    simp only [List.foldl_nil, List.append_nil]
  | cons kv vs' ih =>
    intro pre hpre hvs
    obtain ⟨k, v⟩ := kv
    simp only [List.foldl_cons]
    have hstep : replaceAll (substSegs pre segs) ("\x7b\x7b" ++ k ++ "\x7d\x7d") (jsString v)
        = substSegs (pre ++ [(k, v)]) segs := by
      unfold replaceAll substSegs
      apply congrArg String.mk
      show replaceAllAux ("\x7b\x7b" ++ k ++ "\x7d\x7d").data (jsString v).data
          (segs.flatMap (substSegChars pre)) = _
      rw [phStr_data]
      exact replaceAll_substSegs_step segs pre k v hseg
        (fun kv2 h => (hpre kv2 h).2) (hvs (k, v) (List.Mem.head _)).1
    rw [hstep]
    have hres := ih (pre ++ [(k, v)])
      (by
        intro kv2 h
        rcases List.mem_append.mp h with h2 | h2
        · exact hpre kv2 h2
        · simp only [List.mem_singleton] at h2
          subst h2
          exact hvs (k, v) (List.Mem.head _))
      (fun kv2 h => hvs kv2 (List.Mem.tail _ h))
    rw [hres, List.append_assoc]
    rfl

/-- C6 counterexample: with the template `\x7b\x7ba\x7d\x7d` and the
value map binding `a` to the text `\x7b\x7bb\x7d\x7d` and `b` to `X`,
the substituter returns `X`: the text substituted for `a` is itself
substituted by the later entry, so the occurrence of `\x7b\x7ba\x7d\x7d`
is not replaced by the value of `a` as the claim requires, and the
unmatched-looking output the claim predicts is not produced. -/
theorem replacePlaceholders_simultaneous_cex :
    (∀ s ∈ cexSegs, wfSeg s = true)
      ∧ alookup cexVals "a" = some (.str "\x7b\x7bb\x7d\x7d")
      ∧ replacePlaceholders (render cexSegs) cexVals = "X"
      ∧ substSegs cexVals cexSegs = "\x7b\x7bb\x7d\x7d"
      ∧ replacePlaceholders (render cexSegs) cexVals ≠ substSegs cexVals cexSegs :=
  ⟨by decide, by decide, by decide, by decide, by decide⟩

/-- C6 (amended): substitution is sequential per value-map entry in
declaration order, so a value may inject text that later entries
substitute again.  For templates that are well-formed alternations of
brace-free literal text and bare-identifier placeholders, and value maps
whose names are bare identifiers and whose stringified values contain no
`\x7b` and no `$`, the sequential algorithm coincides with the
simultaneous global substitution the spec describes: every bound
placeholder is replaced by its stringified value and everything else,
including unmatched placeholders, is left verbatim; the function is
total and never throws. -/
theorem replacePlaceholders_simultaneous (segs : List Segment) (values : PlaceholderValues)
    (hseg : ∀ s ∈ segs, wfSeg s = true)
    (hvals : ∀ kv ∈ values, identName kv.1 = true ∧ inertValue kv.2 = true) :
    replacePlaceholders (render segs) values = substSegs values segs := by
  unfold replacePlaceholders
  rw [← substSegs_nil_values segs]
  exact replacePlaceholders_fold_aux segs hseg values []
    (fun kv h => absurd h (List.not_mem_nil kv)) hvals

/-- Witness for C6's amended theorem on the greeting template. -/
theorem replacePlaceholders_simultaneous_witness :
    (∀ s ∈ exSegs, wfSeg s = true)
      ∧ (∀ kv ∈ exSegVals, identName kv.1 = true ∧ inertValue kv.2 = true)
      ∧ replacePlaceholders (render exSegs) exSegVals = substSegs exSegVals exSegs
      ∧ replacePlaceholders (render exSegs) exSegVals
          = "Hello World! \x7b\x7bmissing\x7d\x7d" :=
  ⟨by decide, by decide,
    replacePlaceholders_simultaneous exSegs exSegVals (by decide) (by decide),
    by decide⟩

/-! ## Cross-locale validation (C9) -/

theorem count_flatMap {α β : Type} [DecidableEq β] (f : α → List β) (l : List α) (b : β) :
    (l.flatMap f).count b = (l.map (fun a => (f a).count b)).sum := by
  induction l with
  | nil => rfl
  | cons a as ih =>
    simp only [List.flatMap_cons, List.map_cons, List.sum_cons, List.count_append, ih]

theorem count_map_zero {α β : Type} [DecidableEq β] {f : α → β} {l : List α} {b : β}
    (h : ∀ a ∈ l, f a ≠ b) : (l.map f).count b = 0 := by
  induction l with
  | nil => rfl
  | cons a as ih =>
    simp only [List.map_cons, List.count_cons]
    rw [ih (fun a2 h2 => h a2 (List.Mem.tail _ h2))]
    simp only [beq_iff_eq]
    rw [if_neg (h a (List.Mem.head _))]

theorem sum_map_zero {α : Type} {g : α → Nat} {l : List α} (h : ∀ a ∈ l, g a = 0) :
    (l.map g).sum = 0 := by
  induction l with
  | nil => rfl
  | cons a as ih =>
    simp only [List.map_cons, List.sum_cons, h a (List.Mem.head _),
      ih (fun a2 h2 => h a2 (List.Mem.tail _ h2))]

theorem sum_map_eq_single {α : Type} [DecidableEq α] {g : α → Nat} {l : List α} {x : α}
    (hx : x ∈ l) (hnd : l.Nodup) (hz : ∀ y ∈ l, y ≠ x → g y = 0) : (l.map g).sum = g x := by
  induction l with
  | nil => cases hx
  | cons a as ih =>
    simp only [List.map_cons, List.sum_cons]
    rcases List.mem_cons.mp hx with rfl | hx2
    · have hzs : ∀ y ∈ as, g y = 0 := by
        intro y hy
        refine hz y (List.Mem.tail _ hy) ?_
        intro heq
        subst heq
        exact absurd hy (List.nodup_cons.mp hnd).1
      rw [sum_map_zero hzs]
      exact Nat.add_zero _
    · have ha : g a = 0 := by
        refine hz a (List.Mem.head _) ?_
        intro heq
        subst heq
        exact absurd hx2 (List.nodup_cons.mp hnd).1
      rw [ha, ih hx2 (List.nodup_cons.mp hnd).2
        (fun y hy hne => hz y (List.Mem.tail _ hy) hne), Nat.zero_add]

theorem nsKeysFor_nodup (lt : LocaleTranslations) (loc ns : String) :
    (nsKeysFor lt loc ns).Nodup := by
  unfold nsKeysFor
  cases alookup lt loc with
  | none => exact List.nodup_nil
  | some tf =>
    show (match alookup tf ns with
      | some m => collectAllKeys m
      | none => ([] : List String)).Nodup
    cases alookup tf ns with
    | none => exact List.nodup_nil
    | some m => exact collectAllKeys_nodup m

theorem crossNamespaces_nodup (lt : LocaleTranslations) : (crossNamespaces lt).Nodup := by
  unfold crossNamespaces
  exact @foldl_preserve String (List String) (fun ks => ks.Nodup)
    (fun acc loc =>
      match alookup lt loc with
      | some tf => tf.foldl (fun a p => setAdd a p.1) acc
      | none => acc)
    (crossLocales lt)
    (fun loc _ acc hacc => by
      show (match alookup lt loc with
        | some tf => tf.foldl (fun a (p : String × NamespaceTranslations) => setAdd a p.1) acc
        | none => acc).Nodup
      cases alookup lt loc with
      | none => exact hacc
      | some tf =>
        exact @foldl_preserve (String × NamespaceTranslations) (List String)
          (fun ks => ks.Nodup) (fun a p => setAdd a p.1) tf
          (fun p _ a ha => setAdd_nodup ha) acc hacc)
    [] List.nodup_nil

theorem validateCrossLocale_errors_eq (lt : LocaleTranslations)
    (h : ¬ (crossLocales lt).length < 2) :
    (validateCrossLocale lt).errors
      = (crossNamespaces lt).flatMap
          (fun ns =>
            (crossLocales lt).tail.flatMap
              (fun targetLocale =>
                ((nsKeysFor lt ((crossLocales lt).headD "") ns).filter
                    (fun k => decide (k ∉ nsKeysFor lt targetLocale ns))).map
                    (fun k => mkMissingKeyError ns k targetLocale ((crossLocales lt).headD ""))
                  ++ ((nsKeysFor lt targetLocale ns).filter
                    (fun k => decide (k ∉ nsKeysFor lt ((crossLocales lt).headD "") ns))).map
                    (fun k => mkExtraKeyError ns k targetLocale ((crossLocales lt).headD "")))) := by
  unfold validateCrossLocale
  rw [if_neg h]

theorem mkMissingKeyError_inj {ns k tgt ref ns2 k2 tgt2 ref2 : String}
    (h : mkMissingKeyError ns k tgt ref = mkMissingKeyError ns2 k2 tgt2 ref2) :
    ns = ns2 ∧ k = k2 ∧ tgt = tgt2 := by
  refine ⟨congrArg VError.ns h, congrArg VError.key h, ?_⟩
  have h2 : (some tgt : Option String) = some tgt2 := congrArg VError.locale h
  injection h2

theorem mkExtraKeyError_inj {ns k tgt ref ns2 k2 tgt2 ref2 : String}
    (h : mkExtraKeyError ns k tgt ref = mkExtraKeyError ns2 k2 tgt2 ref2) :
    ns = ns2 ∧ k = k2 ∧ tgt = tgt2 := by
  refine ⟨congrArg VError.ns h, congrArg VError.key h, ?_⟩
  have h2 : (some tgt : Option String) = some tgt2 := congrArg VError.locale h
  injection h2

theorem mkExtra_ne_mkMissing (ns k tgt ref ns2 k2 tgt2 ref2 : String) :
    mkExtraKeyError ns k tgt ref ≠ mkMissingKeyError ns2 k2 tgt2 ref2 := by
  intro h
  have h2 : ("extra-key" : String) = "missing-key" := congrArg VError.type h
  exact absurd h2 (by decide)

theorem crossBlock_count_missing_ne (lt : LocaleTranslations) (ns tgt k ns2 tgt2 : String)
    (hne : ns2 ≠ ns ∨ tgt2 ≠ tgt) :
    (((nsKeysFor lt ((crossLocales lt).headD "") ns2).filter
          (fun k2 => decide (k2 ∉ nsKeysFor lt tgt2 ns2))).map
          (fun k2 => mkMissingKeyError ns2 k2 tgt2 ((crossLocales lt).headD ""))
        ++ ((nsKeysFor lt tgt2 ns2).filter
          (fun k2 => decide (k2 ∉ nsKeysFor lt ((crossLocales lt).headD "") ns2))).map
          (fun k2 => mkExtraKeyError ns2 k2 tgt2 ((crossLocales lt).headD ""))).count
      (mkMissingKeyError ns k tgt ((crossLocales lt).headD "")) = 0 := by
  rw [List.count_append]
  have hm : (((nsKeysFor lt ((crossLocales lt).headD "") ns2).filter
      (fun k2 => decide (k2 ∉ nsKeysFor lt tgt2 ns2))).map
      (fun k2 => mkMissingKeyError ns2 k2 tgt2 ((crossLocales lt).headD ""))).count
      (mkMissingKeyError ns k tgt ((crossLocales lt).headD "")) = 0 := by
    refine count_map_zero ?_
    intro k2 _ heq
    rcases mkMissingKeyError_inj heq with ⟨hn, _, ht⟩
    rcases hne with hne | hne
    · exact hne hn
    · exact hne ht
  have he : (((nsKeysFor lt tgt2 ns2).filter
      (fun k2 => decide (k2 ∉ nsKeysFor lt ((crossLocales lt).headD "") ns2))).map
      (fun k2 => mkExtraKeyError ns2 k2 tgt2 ((crossLocales lt).headD ""))).count
      (mkMissingKeyError ns k tgt ((crossLocales lt).headD "")) = 0 := by
    refine count_map_zero ?_
    intro k2 _ heq
    exact mkExtra_ne_mkMissing _ _ _ _ _ _ _ _ heq
  rw [hm, he]

theorem crossBlock_count_extra_ne (lt : LocaleTranslations) (ns tgt k ns2 tgt2 : String)
    (hne : ns2 ≠ ns ∨ tgt2 ≠ tgt) :
    (((nsKeysFor lt ((crossLocales lt).headD "") ns2).filter
          (fun k2 => decide (k2 ∉ nsKeysFor lt tgt2 ns2))).map
          (fun k2 => mkMissingKeyError ns2 k2 tgt2 ((crossLocales lt).headD ""))
        ++ ((nsKeysFor lt tgt2 ns2).filter
          (fun k2 => decide (k2 ∉ nsKeysFor lt ((crossLocales lt).headD "") ns2))).map
          (fun k2 => mkExtraKeyError ns2 k2 tgt2 ((crossLocales lt).headD ""))).count
      (mkExtraKeyError ns k tgt ((crossLocales lt).headD "")) = 0 := by
  rw [List.count_append]
  have hm : (((nsKeysFor lt ((crossLocales lt).headD "") ns2).filter
      (fun k2 => decide (k2 ∉ nsKeysFor lt tgt2 ns2))).map
      (fun k2 => mkMissingKeyError ns2 k2 tgt2 ((crossLocales lt).headD ""))).count
      (mkExtraKeyError ns k tgt ((crossLocales lt).headD "")) = 0 := by
    refine count_map_zero ?_
    intro k2 _ heq
    exact mkExtra_ne_mkMissing _ _ _ _ _ _ _ _ heq.symm
  have he : (((nsKeysFor lt tgt2 ns2).filter
      (fun k2 => decide (k2 ∉ nsKeysFor lt ((crossLocales lt).headD "") ns2))).map
      (fun k2 => mkExtraKeyError ns2 k2 tgt2 ((crossLocales lt).headD ""))).count
      (mkExtraKeyError ns k tgt ((crossLocales lt).headD "")) = 0 := by
    refine count_map_zero ?_
    intro k2 _ heq
    rcases mkExtraKeyError_inj heq with ⟨hn, _, ht⟩
    rcases hne with hne | hne
    · exact hne hn
    · exact hne ht
  rw [hm, he]

theorem crossBlock_count_missing_eq (lt : LocaleTranslations) (ns tgt k : String)
    (hkref : k ∈ nsKeysFor lt ((crossLocales lt).headD "") ns)
    (hktgt : k ∉ nsKeysFor lt tgt ns) :
    (((nsKeysFor lt ((crossLocales lt).headD "") ns).filter
          (fun k2 => decide (k2 ∉ nsKeysFor lt tgt ns))).map
          (fun k2 => mkMissingKeyError ns k2 tgt ((crossLocales lt).headD ""))
        ++ ((nsKeysFor lt tgt ns).filter
          (fun k2 => decide (k2 ∉ nsKeysFor lt ((crossLocales lt).headD "") ns))).map
          (fun k2 => mkExtraKeyError ns k2 tgt ((crossLocales lt).headD ""))).count
      (mkMissingKeyError ns k tgt ((crossLocales lt).headD "")) = 1 := by
  rw [List.count_append]
  have he : (((nsKeysFor lt tgt ns).filter
      (fun k2 => decide (k2 ∉ nsKeysFor lt ((crossLocales lt).headD "") ns))).map
      (fun k2 => mkExtraKeyError ns k2 tgt ((crossLocales lt).headD ""))).count
      (mkMissingKeyError ns k tgt ((crossLocales lt).headD "")) = 0 := by
    refine count_map_zero ?_
    intro k2 _ heq
    exact mkExtra_ne_mkMissing _ _ _ _ _ _ _ _ heq
  have hmem : mkMissingKeyError ns k tgt ((crossLocales lt).headD "")
      ∈ ((nsKeysFor lt ((crossLocales lt).headD "") ns).filter
          (fun k2 => decide (k2 ∉ nsKeysFor lt tgt ns))).map
          (fun k2 => mkMissingKeyError ns k2 tgt ((crossLocales lt).headD "")) :=
    List.mem_map_of_mem _ (List.mem_filter.mpr ⟨hkref, decide_eq_true hktgt⟩)
  have hnodup : (((nsKeysFor lt ((crossLocales lt).headD "") ns).filter
      (fun k2 => decide (k2 ∉ nsKeysFor lt tgt ns))).map
      (fun k2 => mkMissingKeyError ns k2 tgt ((crossLocales lt).headD ""))).Nodup :=
    ((nsKeysFor_nodup lt _ ns).filter _).map
      (fun k1 k2 heq => (mkMissingKeyError_inj heq).2.1)
  rw [List.count_eq_one_of_mem hnodup hmem, he]

theorem crossBlock_count_extra_eq (lt : LocaleTranslations) (ns tgt k : String)
    (hktgt : k ∈ nsKeysFor lt tgt ns)
    (hkref : k ∉ nsKeysFor lt ((crossLocales lt).headD "") ns) :
    (((nsKeysFor lt ((crossLocales lt).headD "") ns).filter
          (fun k2 => decide (k2 ∉ nsKeysFor lt tgt ns))).map
          (fun k2 => mkMissingKeyError ns k2 tgt ((crossLocales lt).headD ""))
        ++ ((nsKeysFor lt tgt ns).filter
          (fun k2 => decide (k2 ∉ nsKeysFor lt ((crossLocales lt).headD "") ns))).map
          (fun k2 => mkExtraKeyError ns k2 tgt ((crossLocales lt).headD ""))).count
      (mkExtraKeyError ns k tgt ((crossLocales lt).headD "")) = 1 := by
  rw [List.count_append]
  have hm : (((nsKeysFor lt ((crossLocales lt).headD "") ns).filter
      (fun k2 => decide (k2 ∉ nsKeysFor lt tgt ns))).map
      (fun k2 => mkMissingKeyError ns k2 tgt ((crossLocales lt).headD ""))).count
      (mkExtraKeyError ns k tgt ((crossLocales lt).headD "")) = 0 := by
    refine count_map_zero ?_
    intro k2 _ heq
    exact mkExtra_ne_mkMissing _ _ _ _ _ _ _ _ heq.symm
  have hmem : mkExtraKeyError ns k tgt ((crossLocales lt).headD "")
      ∈ ((nsKeysFor lt tgt ns).filter
          (fun k2 => decide (k2 ∉ nsKeysFor lt ((crossLocales lt).headD "") ns))).map
          (fun k2 => mkExtraKeyError ns k2 tgt ((crossLocales lt).headD "")) :=
    List.mem_map_of_mem _ (List.mem_filter.mpr ⟨hktgt, decide_eq_true hkref⟩)
  have hnodup : (((nsKeysFor lt tgt ns).filter
      (fun k2 => decide (k2 ∉ nsKeysFor lt ((crossLocales lt).headD "") ns))).map
      (fun k2 => mkExtraKeyError ns k2 tgt ((crossLocales lt).headD ""))).Nodup :=
    ((nsKeysFor_nodup lt _ ns).filter _).map
      (fun k1 k2 heq => (mkExtraKeyError_inj heq).2.1)
  rw [List.count_eq_one_of_mem hnodup hmem, hm]

theorem crossErrors_count_missing (lt : LocaleTranslations)
    (h2 : ¬ (crossLocales lt).length < 2) (hnd : (crossLocales lt).Nodup)
    (ns tgt k : String) (hns : ns ∈ crossNamespaces lt)
    (htgt : tgt ∈ (crossLocales lt).tail)
    (hkref : k ∈ nsKeysFor lt ((crossLocales lt).headD "") ns)
    (hktgt : k ∉ nsKeysFor lt tgt ns) :
    ((validateCrossLocale lt).errors).count
      (mkMissingKeyError ns k tgt ((crossLocales lt).headD "")) = 1 := by
  rw [validateCrossLocale_errors_eq lt h2]
  refine Eq.trans (count_flatMap _ _ _) ?_
  refine Eq.trans (sum_map_eq_single hns (crossNamespaces_nodup lt) ?_) ?_
  · intro ns2 _ hne
    refine Eq.trans (count_flatMap _ _ _) ?_
    refine sum_map_zero ?_
    intro tgt2 _
    exact crossBlock_count_missing_ne lt ns tgt k ns2 tgt2 (Or.inl hne)
  · refine Eq.trans (count_flatMap _ _ _) ?_
    refine Eq.trans (sum_map_eq_single htgt hnd.tail ?_) ?_
    · intro tgt2 _ hne
      exact crossBlock_count_missing_ne lt ns tgt k ns tgt2 (Or.inr hne)
    · exact crossBlock_count_missing_eq lt ns tgt k hkref hktgt

theorem crossErrors_count_extra (lt : LocaleTranslations)
    (h2 : ¬ (crossLocales lt).length < 2) (hnd : (crossLocales lt).Nodup)
    (ns tgt k : String) (hns : ns ∈ crossNamespaces lt)
    (htgt : tgt ∈ (crossLocales lt).tail)
    (hktgt : k ∈ nsKeysFor lt tgt ns)
    (hkref : k ∉ nsKeysFor lt ((crossLocales lt).headD "") ns) :
    ((validateCrossLocale lt).errors).count
      (mkExtraKeyError ns k tgt ((crossLocales lt).headD "")) = 1 := by
  rw [validateCrossLocale_errors_eq lt h2]
  refine Eq.trans (count_flatMap _ _ _) ?_
  refine Eq.trans (sum_map_eq_single hns (crossNamespaces_nodup lt) ?_) ?_
  · intro ns2 _ hne
    refine Eq.trans (count_flatMap _ _ _) ?_
    refine sum_map_zero ?_
    intro tgt2 _
    exact crossBlock_count_extra_ne lt ns tgt k ns2 tgt2 (Or.inl hne)
  · refine Eq.trans (count_flatMap _ _ _) ?_
    refine Eq.trans (sum_map_eq_single htgt hnd.tail ?_) ?_
    · intro tgt2 _ hne
      exact crossBlock_count_extra_ne lt ns tgt k ns tgt2 (Or.inr hne)
    · exact crossBlock_count_extra_eq lt ns tgt k hktgt hkref

theorem crossErrors_mem_shape (lt : LocaleTranslations)
    (h2 : ¬ (crossLocales lt).length < 2) :
    ∀ e ∈ (validateCrossLocale lt).errors, ∃ ns tgt k,
      ns ∈ crossNamespaces lt ∧ tgt ∈ (crossLocales lt).tail ∧
      ((e = mkMissingKeyError ns k tgt ((crossLocales lt).headD "")
          ∧ k ∈ nsKeysFor lt ((crossLocales lt).headD "") ns
          ∧ k ∉ nsKeysFor lt tgt ns)
        ∨ (e = mkExtraKeyError ns k tgt ((crossLocales lt).headD "")
          ∧ k ∈ nsKeysFor lt tgt ns
          ∧ k ∉ nsKeysFor lt ((crossLocales lt).headD "") ns)) := by
  rw [validateCrossLocale_errors_eq lt h2]
  intro e he
  rcases List.mem_flatMap.mp he with ⟨ns, hns, he2⟩
  rcases List.mem_flatMap.mp he2 with ⟨tgt, htgt, he3⟩
  rcases List.mem_append.mp he3 with he4 | he4
  · rcases List.mem_map.mp he4 with ⟨k, hk, hke⟩
    rcases List.mem_filter.mp hk with ⟨hk1, hk2⟩
    exact ⟨ns, tgt, k, hns, htgt,
      Or.inl ⟨hke.symm, hk1, of_decide_eq_true hk2⟩⟩
  · rcases List.mem_map.mp he4 with ⟨k, hk, hke⟩
    rcases List.mem_filter.mp hk with ⟨hk1, hk2⟩
    exact ⟨ns, tgt, k, hns, htgt,
      Or.inr ⟨hke.symm, hk1, of_decide_eq_true hk2⟩⟩

/-- C9: `validateCrossLocale` on a locale-keyed catalog: with fewer than two
locales it returns a valid result with no errors. Otherwise, with the first
locale as reference: every emitted error is a `missing-key` error (locale =
target, referenceLocale = reference) for a reference key absent from the
target of some namespace of the union, or an `extra-key` error for a target
key absent from the reference; and (for distinct locale names) each such
missing reference key yields exactly one `missing-key` error and each such
extra target key exactly one `extra-key` error. -/
theorem validateCrossLocale_characterization :
    (∀ lt : LocaleTranslations, (crossLocales lt).length < 2 →
        validateCrossLocale lt = ⟨true, [], []⟩)
    ∧ (∀ lt : LocaleTranslations, 2 ≤ (crossLocales lt).length →
        ∀ e ∈ (validateCrossLocale lt).errors, ∃ ns tgt k,
          ns ∈ crossNamespaces lt ∧ tgt ∈ (crossLocales lt).tail ∧
          ((e = mkMissingKeyError ns k tgt ((crossLocales lt).headD "")
              ∧ k ∈ nsKeysFor lt ((crossLocales lt).headD "") ns
              ∧ k ∉ nsKeysFor lt tgt ns)
            ∨ (e = mkExtraKeyError ns k tgt ((crossLocales lt).headD "")
              ∧ k ∈ nsKeysFor lt tgt ns
              ∧ k ∉ nsKeysFor lt ((crossLocales lt).headD "") ns)))
    ∧ (∀ lt : LocaleTranslations, 2 ≤ (crossLocales lt).length →
        (crossLocales lt).Nodup →
        ∀ ns ∈ crossNamespaces lt, ∀ tgt ∈ (crossLocales lt).tail, ∀ k : String,
          (k ∈ nsKeysFor lt ((crossLocales lt).headD "") ns →
            k ∉ nsKeysFor lt tgt ns →
            ((validateCrossLocale lt).errors).count
              (mkMissingKeyError ns k tgt ((crossLocales lt).headD "")) = 1)
          ∧ (k ∈ nsKeysFor lt tgt ns →
            k ∉ nsKeysFor lt ((crossLocales lt).headD "") ns →
            ((validateCrossLocale lt).errors).count
              (mkExtraKeyError ns k tgt ((crossLocales lt).headD "")) = 1)) := by
  refine ⟨?_, ?_, ?_⟩
  · intro lt h
    unfold validateCrossLocale
    rw [if_pos h]
  · intro lt h
    exact crossErrors_mem_shape lt (by omega)
  · intro lt h hnd ns hns tgt htgt k
    exact ⟨fun hkref hktgt =>
        crossErrors_count_missing lt (by omega) hnd ns tgt k hns htgt hkref hktgt,
      fun hktgt hkref =>
        crossErrors_count_extra lt (by omega) hnd ns tgt k hns htgt hktgt hkref⟩

theorem validateCrossLocale_characterization_witness :
    validateCrossLocale [("en", [("common", [("submit", JValue.str "Submit")])])]
      = ⟨true, [], []⟩
    ∧ (∃ ns tgt k, ns ∈ crossNamespaces exCrossCatalog
        ∧ tgt ∈ (crossLocales exCrossCatalog).tail
        ∧ ((mkMissingKeyError "common" "cancel" "ja" "en"
              = mkMissingKeyError ns k tgt ((crossLocales exCrossCatalog).headD "")
            ∧ k ∈ nsKeysFor exCrossCatalog ((crossLocales exCrossCatalog).headD "") ns
            ∧ k ∉ nsKeysFor exCrossCatalog tgt ns)
          ∨ (mkMissingKeyError "common" "cancel" "ja" "en"
              = mkExtraKeyError ns k tgt ((crossLocales exCrossCatalog).headD "")
            ∧ k ∈ nsKeysFor exCrossCatalog tgt ns
            ∧ k ∉ nsKeysFor exCrossCatalog ((crossLocales exCrossCatalog).headD "") ns)))
    ∧ ((validateCrossLocale exCrossCatalog).errors).count
        (mkMissingKeyError "common" "cancel" "ja" "en") = 1 :=
  ⟨validateCrossLocale_characterization.1
      [("en", [("common", [("submit", JValue.str "Submit")])])] (by decide),
    validateCrossLocale_characterization.2.1 exCrossCatalog (by decide)
      (mkMissingKeyError "common" "cancel" "ja" "en") (by decide),
    (validateCrossLocale_characterization.2.2 exCrossCatalog (by decide) (by decide)
      "common" (by decide) "ja" (by decide) "cancel").1 (by decide) (by decide)⟩

end Colocale
